import Mathlib

/-!
A verification development for a QKD simulation repository containing three
Python modules: `BB84Ideal.py`, `EntanglementBasedProtocolIdeal.py` and
`EntanglementBasedProtocolNoisy.py`.  The quantum circuits the code builds
are embedded syntactically as lists of gates; an ideal one-shot simulator
semantics interprets a circuit on an unnormalised integer-amplitude state
vector (global scale factors are irrelevant to measurement outcomes, so the
Hadamard gate is modelled without its 1/sqrt 2 factor).  Randomness of a
measurement whose pre-measurement state is a genuine superposition is
resolved by an explicit oracle stream `rand : ℕ → Bool` consumed at a
running position, threaded through the pipeline exactly as the single
global random source of the simulator backend is.  Python lists mutated in
place are passed and returned explicitly; Python index accesses are
modelled with `List.get?`, so an out-of-range access makes the surrounding
operation return `none` just as the Python code raises `IndexError`.

The two entanglement modules define textually identical classical
post-processing (`encodeMessage`, `decodeMessage`, `measureBER`,
`discardBits`, `measureQBER`), so a single embedding covers both; the only
difference between the ideal and the noisy module is the backend used for
the simulator call, which is outside the classical dataflow modelled here.
-/

/-- Module-level constant `numTests` (all three files): number of trials. -/
def numTests : ℕ := 10000

/-- Module-level constant `numBits` of `BB84Ideal.py`. -/
def numBits : ℕ := 50

/-- Module-level constant `numPairings` of the entanglement modules. -/
def numPairings : ℕ := 25

/-- Module-level constant `evePresent` of the entanglement modules
(the source sets it to `True`).  `BB84Ideal.py` has no such constant. -/
def evePresent : Bool := true

/-- Syntactic gate operations appearing in the circuits the code builds:
Hadamard, Pauli X, Pauli Z, CNOT, a visual barrier, and a measurement of a
qubit into a classical register. -/
inductive Gate where
  | h : ℕ → Gate
  | x : ℕ → Gate
  | z : ℕ → Gate
  | cx : ℕ → ℕ → Gate
  | barrier : Gate
  | measure : ℕ → ℕ → Gate
deriving DecidableEq

/-- A quantum circuit is its ordered list of gate operations. -/
abbrev Circuit := List Gate

/-- The basis state index `i` with bit `q` forced to `1`. -/
def setBitTrue (i q : ℕ) : ℕ := if i.testBit q then i else i ^^^ (2 ^ q)

/-- The basis state index `i` with bit `q` forced to `0`. -/
def setBitFalse (i q : ℕ) : ℕ := if i.testBit q then i ^^^ (2 ^ q) else i

/-- Simulator state: unnormalised integer amplitudes over basis states
(basis index bit `q` is qubit `q`), the classical registers, and the
random oracle with its consumption position. -/
structure SimState where
  amp : ℕ → ℤ
  creg : ℕ → Bool
  rand : ℕ → Bool
  pos : ℕ

/-- Whether some basis state with qubit `q` set to `1` has nonzero
amplitude. -/
def measHas1 (n q : ℕ) (s : SimState) : Bool :=
  (List.range (2 ^ n)).any (fun i => i.testBit q && (s.amp i != 0))

/-- Whether some basis state with qubit `q` set to `0` has nonzero
amplitude. -/
def measHas0 (n q : ℕ) (s : SimState) : Bool :=
  (List.range (2 ^ n)).any (fun i => !(i.testBit q) && (s.amp i != 0))

/-- A measurement of qubit `q` is nondeterministic exactly when both
values have support; only then is the random oracle consulted. -/
def measBranch (n q : ℕ) (s : SimState) : Bool := measHas1 n q s && measHas0 n q s

/-- The sampled value of a measurement of qubit `q`. -/
def measOutcome (n q : ℕ) (s : SimState) : Bool :=
  if measBranch n q s then s.rand s.pos else measHas1 n q s

/-- One gate step of the ideal simulator on an `n`-qubit register.
A measurement whose pre-measurement state assigns nonzero amplitude to
both values of the measured qubit consumes one oracle bit; a deterministic
measurement consumes none. -/
def applyGate (n : ℕ) (g : Gate) (s : SimState) : SimState :=
  match g with
  | Gate.h q =>
      { s with amp := fun i =>
          s.amp (setBitFalse i q) + (if i.testBit q then -1 else 1) * s.amp (setBitTrue i q) }
  | Gate.x q => { s with amp := fun i => s.amp (i ^^^ (2 ^ q)) }
  | Gate.z q => { s with amp := fun i => (if i.testBit q then -1 else 1) * s.amp i }
  | Gate.cx c t => { s with amp := fun i => s.amp (if i.testBit c then i ^^^ (2 ^ t) else i) }
  | Gate.barrier => s
  | Gate.measure q c =>
      { amp := fun i => if (i.testBit q) == measOutcome n q s then s.amp i else 0,
        creg := fun c2 => if c2 = c then measOutcome n q s else s.creg c2,
        rand := s.rand,
        pos := if measBranch n q s then s.pos + 1 else s.pos }

/-- The all-zero initial state of one simulator shot. -/
def initState (rand : ℕ → Bool) (pos : ℕ) : SimState :=
  { amp := fun i => if i = 0 then 1 else 0, creg := fun _ => false, rand := rand, pos := pos }

/-- Running a circuit gate by gate from an arbitrary state. -/
def runFrom (n : ℕ) (c : Circuit) (s : SimState) : SimState :=
  c.foldl (fun t g => applyGate n g t) s

/-- One simulator shot: run every gate of the circuit on `|0…0⟩`. -/
def runCircuit (n : ℕ) (c : Circuit) (rand : ℕ → Bool) (pos : ℕ) : SimState :=
  runFrom n c (initState rand pos)

/-! ### BB84Ideal.py -/

/-- The 1-qubit circuit `encode_message` builds for one bit: basis `0`
(Z-basis) applies nothing or an X gate, basis `1` (X-basis) applies `H` or
`X` then `H`; a barrier closes the encoding. -/
def encodeQubit (b ba : ℕ) : Circuit :=
  (if ba = 0 then (if b = 0 then [] else [Gate.x 0])
   else (if b = 0 then [Gate.h 0] else [Gate.x 0, Gate.h 0])) ++ [Gate.barrier]

/-- The loop body of `encode_message` over an explicit list of loop
indices (the source iterates `for i in range(numBits)`). -/
def encodeGo (bits bases : List ℕ) : List ℕ → Option (List Circuit)
  | [] => some []
  | i :: is => do
      let ba ← bases.get? i
      let b ← bits.get? i
      let rest ← encodeGo bits bases is
      some (encodeQubit b ba :: rest)

/-- `encode_message(bits, bases)` of `BB84Ideal.py`. -/
def encode_message (bits bases : List ℕ) : Option (List Circuit) :=
  encodeGo bits bases (List.range numBits)

/-- The gates `measure_message` appends to a circuit before the shot:
`measure` for basis `0`, `H` then `measure` for basis `1` (two independent
`if` statements in the source). -/
def bb84MeasGates (ba : ℕ) : List Gate :=
  (if ba = 0 then [Gate.measure 0 0] else []) ++
  (if ba = 1 then [Gate.h 0, Gate.measure 0 0] else [])

/-- The loop body of `measure_message`: appends the measurement gates to
`message[q]` in place (modelled by returning the updated list), runs one
shot and records classical register 0 as the measured bit. -/
def measureGo (bases : List ℕ) (rand : ℕ → Bool) :
    List ℕ → List Circuit → ℕ → Option (List ℕ × List Circuit × ℕ)
  | [], msg, pos => some ([], msg, pos)
  | q :: qs, msg, pos => do
      let qc ← msg.get? q
      let ba ← bases.get? q
      let qc2 := qc ++ bb84MeasGates ba
      let s := runCircuit 1 qc2 rand pos
      let rest ← measureGo bases rand qs (msg.set q qc2) s.pos
      some ((if s.creg 0 then 1 else 0) :: rest.1, rest.2)

/-- `measure_message(message, bases)` of `BB84Ideal.py`; the returned
triple is (measurements, message after its in-place mutation, oracle
position after the shots). -/
def measure_message (message : List Circuit) (bases : List ℕ) (rand : ℕ → Bool) (pos : ℕ) :
    Option (List ℕ × List Circuit × ℕ) :=
  measureGo bases rand (List.range numBits) message pos

/-- The loop body of BB84 `discardBits`: keep position `i` when the two
bases agree there; `results[i]` and `aliceBits[i]` are read only in that
case, exactly as in the source. -/
def discardGo (results aliceBits aliceBases bobBases : List ℕ) :
    List ℕ → Option (List ℕ × List ℕ)
  | [] => some ([], [])
  | i :: is => do
      let ab ← aliceBases.get? i
      let bb ← bobBases.get? i
      if ab = bb then do
        let r ← results.get? i
        let a ← aliceBits.get? i
        let rest ← discardGo results aliceBits aliceBases bobBases is
        some (r :: rest.1, a :: rest.2)
      else discardGo results aliceBits aliceBases bobBases is

/-- `discardBits(results, aliceBits, aliceBases, bobBases)` of
`BB84Ideal.py`. -/
def discardBits (results aliceBits aliceBases bobBases : List ℕ) :
    Option (List ℕ × List ℕ) :=
  discardGo results aliceBits aliceBases bobBases (List.range numBits)

/-- `measureQBER` of `BB84Ideal.py`: `none` models the string `"null"`
returned for an empty secret key; otherwise the loop counts mismatching
positions and divides by the key length.  The function is only ever called
on the two equal-length lists produced by `discardBits`, so the accesses
are modelled with `getD`. -/
def measureQBER (newResults newAliceBits : List ℕ) : Option ℚ :=
  if newResults.length = 0 then none
  else
    let k : ℕ := (List.range newResults.length).foldl
      (fun acc i => if newResults.getD i 0 ≠ newAliceBits.getD i 0 then acc + 1 else acc) 0
    some ((k : ℚ) / (newResults.length : ℚ))

/-- One step of the BB84 driver's busy-retry: the index of the first trial
at or after `c` whose `measureQBER` is not the `"null"` sentinel.  `f` is
the stream of per-invocation trial results and `H` states that every
retry loop terminates (the source loop has no retry bound). -/
def nextHit (f : ℕ → Option ℚ) (H : ∀ c, ∃ k, (f (c + k)).isSome = true) (c : ℕ) : ℕ :=
  c + Nat.find (H c)

/-- The BB84 driver's result log: for each of the remaining tests, retry
`runProtocol` until the result is not `"null"`, then log that value
(`f.write(str(QBER))` / `allQBER.append(QBER)` in the source). -/
def driverLog (f : ℕ → Option ℚ) (H : ∀ c, ∃ k, (f (c + k)).isSome = true) :
    ℕ → ℕ → List ℚ
  | 0, _ => []
  | t + 1, c => (f (nextHit f H c)).getD 0 :: driverLog f H t (nextHit f H c + 1)

/-! ### EntanglementBasedProtocolIdeal.py / EntanglementBasedProtocolNoisy.py -/

/-- `createBellState(qc, qubit0, qubit1)`: Hadamard on `qubit0` then CNOT
onto `qubit1`. -/
def createBellState (qubit0 qubit1 : ℕ) : List Gate :=
  [Gate.h qubit0, Gate.cx qubit0 qubit1]

/-- The two qubit pairs selected by a pairing label `0`, `1` or `2`
(the source's `pair1`/`pair2` assignment; any other label falls into the
`else` branch exactly as in the source). -/
def pairsOfLabel (p : ℕ) : (ℕ × ℕ) × (ℕ × ℕ) :=
  if p = 0 then ((0, 1), (2, 3)) else if p = 1 then ((0, 2), (1, 3)) else ((0, 3), (1, 2))

/-- The Bell-state preparation prefix of one encoded block: `createBellState`
on each pair, then a barrier. -/
def bellPrep (p : ℕ) : Circuit :=
  createBellState (pairsOfLabel p).1.1 (pairsOfLabel p).1.2 ++
  createBellState (pairsOfLabel p).2.1 (pairsOfLabel p).2.2 ++ [Gate.barrier]

/-- One block of `encodeMessage`: Bell preparation followed by the X/Z
gates of the `if/elif` chain on the block's two bits, and a final barrier.
When `bits[2*i]` is neither `0` nor `1` no branch applies. -/
def encodeBlock (b0 b1 p : ℕ) : Circuit :=
  bellPrep p ++
  (if b0 = 0 ∧ b1 = 0 then [Gate.x (pairsOfLabel p).2.1]
   else if b0 = 0 ∧ b1 = 1 then [Gate.x (pairsOfLabel p).1.1]
   else if b0 = 1 ∧ b1 = 0 then
     [Gate.z (pairsOfLabel p).1.2, Gate.z (pairsOfLabel p).2.1, Gate.x (pairsOfLabel p).2.2]
   else if b0 = 1 ∧ b1 = 1 then
     [Gate.z (pairsOfLabel p).1.1, Gate.x (pairsOfLabel p).1.2, Gate.z (pairsOfLabel p).2.2]
   else []) ++ [Gate.barrier]

/-- The loop body of `encodeMessage`.  The `if/elif` chain of the source
short-circuits: when `bits[2*i]` is neither `0` nor `1`, every condition
fails on its first conjunct and `bits[2*i+1]` is never read (in that case
`encodeBlock b0 0 p` applies no conditional gate, matching the source). -/
def entEncodeGo (bits pairs : List ℕ) : List ℕ → Option (List Circuit)
  | [] => some []
  | i :: is => do
      let p ← pairs.get? i
      let b0 ← bits.get? (2 * i)
      let qc ← if b0 = 0 ∨ b0 = 1 then
                 (bits.get? (2 * i + 1)).map (fun b1 => encodeBlock b0 b1 p)
               else some (encodeBlock b0 0 p)
      let rest ← entEncodeGo bits pairs is
      some (qc :: rest)

/-- `encodeMessage(bits, pairs)` of the entanglement modules. -/
def encodeMessage (bits pairs : List ℕ) : Option (List Circuit) :=
  entEncodeGo bits pairs (List.range numPairings)

/-- Rendering of one classical bit of the simulator memory string. -/
def bitChar (b : Bool) : Char := if b then '1' else '0'

/-- The simulator memory string of one 4-register shot, most significant
classical register first (`get_memory()[0]` in the source). -/
def memString (creg : ℕ → Bool) : String :=
  String.mk [bitChar (creg 3), bitChar (creg 2), bitChar (creg 1), bitChar (creg 0)]

/-- The fixed decode lookup of `decodeMessage`: the three named 4-bit
strings map to `(0,0)`, `(0,1)`, `(1,0)`; everything else to `(1,1)`. -/
def decodeLookup (m : String) : ℕ × ℕ :=
  if m = "0001" then (0, 0)
  else if m = "0100" then (0, 1)
  else if m = "1011" then (1, 0)
  else (1, 1)

/-- The gates `decodeMessage` appends to a block circuit before its shot:
the inverse Bell transform (CNOT then H per pair) and the four
measurements into classical registers 3, 2, 1, 0. -/
def entDecodeGates (p : ℕ) : List Gate :=
  [Gate.cx (pairsOfLabel p).1.1 (pairsOfLabel p).1.2, Gate.h (pairsOfLabel p).1.1,
   Gate.cx (pairsOfLabel p).2.1 (pairsOfLabel p).2.2, Gate.h (pairsOfLabel p).2.1,
   Gate.measure (pairsOfLabel p).1.1 3, Gate.measure (pairsOfLabel p).1.2 2,
   Gate.measure (pairsOfLabel p).2.1 1, Gate.measure (pairsOfLabel p).2.2 0]

/-- The loop body of `decodeMessage`: mutate `message[i]` by appending the
decode gates, run one shot, and append the two bits of the lookup of the
memory string. -/
def decodeGo (pairs : List ℕ) (rand : ℕ → Bool) :
    List ℕ → List Circuit → ℕ → Option (List ℕ × List Circuit × ℕ)
  | [], msg, pos => some ([], msg, pos)
  | i :: is, msg, pos => do
      let qc ← msg.get? i
      let p ← pairs.get? i
      let qc2 := qc ++ entDecodeGates p
      let s := runCircuit 4 qc2 rand pos
      let rest ← decodeGo pairs rand is (msg.set i qc2) s.pos
      some ((decodeLookup (memString s.creg)).1 :: (decodeLookup (memString s.creg)).2 :: rest.1,
            rest.2)

/-- `decodeMessage(message, pairs)` of the entanglement modules; the
returned triple is (results, message after its in-place mutation, oracle
position after the shots). -/
def decodeMessage (message : List Circuit) (pairs : List ℕ) (rand : ℕ → Bool) (pos : ℕ) :
    Option (List ℕ × List Circuit × ℕ) :=
  decodeGo pairs rand (List.range numPairings) message pos

/-- The loop body of `measureBER`, counting whole blocks where both
decoded bits agree with the original bits.  The Python `and`
short-circuits: the second bits of a block are read only when its first
bits agree. -/
def berGo (aliceBits results : List ℕ) : List ℕ → Option ℕ
  | [] => some 0
  | i :: is => do
      let a0 ← aliceBits.get? (2 * i)
      let r0 ← results.get? (2 * i)
      let c ← if a0 = r0 then do
            let a1 ← aliceBits.get? (2 * i + 1)
            let r1 ← results.get? (2 * i + 1)
            some (if a1 = r1 then (1 : ℕ) else 0)
          else some 0
      let rest ← berGo aliceBits results is
      some (c + rest)

/-- `measureBER(aliceBits, results)` of the entanglement modules:
`1 - (matching blocks) / numPairings`. -/
def measureBER (aliceBits results : List ℕ) : Option ℚ :=
  (berGo aliceBits results (List.range numPairings)).map
    (fun c => 1 - (c : ℚ) / (numPairings : ℚ))

/-- The loop body of the entanglement `discardBits`: keep both bits of
block `i` when the two pairing labels agree there; the four bit accesses
happen only in that case, exactly as in the source. -/
def ent_discardGo (results aliceBits alicePairs bobPairs : List ℕ) :
    List ℕ → Option (List ℕ × List ℕ)
  | [] => some ([], [])
  | i :: is => do
      let ap ← alicePairs.get? i
      let bp ← bobPairs.get? i
      if ap = bp then do
        let r0 ← results.get? (2 * i)
        let r1 ← results.get? (2 * i + 1)
        let a0 ← aliceBits.get? (2 * i)
        let a1 ← aliceBits.get? (2 * i + 1)
        let rest ← ent_discardGo results aliceBits alicePairs bobPairs is
        some (r0 :: r1 :: rest.1, a0 :: a1 :: rest.2)
      else ent_discardGo results aliceBits alicePairs bobPairs is

/-- `discardBits(results, aliceBits, alicePairs, bobPairs)` of the
entanglement modules. -/
def ent_discardBits (results aliceBits alicePairs bobPairs : List ℕ) :
    Option (List ℕ × List ℕ) :=
  ent_discardGo results aliceBits alicePairs bobPairs (List.range numPairings)

/-- `measureQBER` of the entanglement modules: `1` for an empty secret
key; otherwise one minus the fraction of whole kept blocks whose two bits
both agree, the denominator being `len(newResults)/2` as a rational.  As
in the BB84 variant, the function is only ever called on the equal-length
outputs of `discardBits`, so accesses are modelled with `getD`. -/
def ent_measureQBER (newResults newAliceBits : List ℕ) : ℚ :=
  if newResults.length = 0 then 1
  else
    1 - (((List.range (newResults.length / 2)).countP
            (fun i => (newResults.getD (2 * i) 0 == newAliceBits.getD (2 * i) 0) &&
                      (newResults.getD (2 * i + 1) 0 == newAliceBits.getD (2 * i + 1) 0))
          : ℕ) : ℚ)
        / ((newResults.length : ℚ) / 2)

/-- The message the BB84 receiver measures, as produced by `runProtocol`
of `BB84Ideal.py`: Eve's interception and re-encoding are unconditional in
that file (there is no `evePresent` constant), so the receiver always gets
the re-encoded message. -/
def bb84_bobMessage (aliceBits aliceBases eveBases : List ℕ) (rand : ℕ → Bool) (pos : ℕ) :
    Option (List Circuit × ℕ) := do
  let message ← encode_message aliceBits aliceBases
  let m ← measure_message message eveBases rand pos
  let newMessage ← encode_message m.1 eveBases
  some (newMessage, m.2.2)

/-- The message the entanglement receiver decodes, as produced by
`runProtocol` of the entanglement modules, parameterised by the
module-level constant `evePresent` (the configuration surface): with the
toggle on, Eve decodes and re-encodes with her own pairings
(`eveMeasureAndDecode`); with it off, the sender's message is passed on
unmodified. -/
def ent_bobMessage (eve : Bool) (aliceBits alicePairs evePairs : List ℕ)
    (rand : ℕ → Bool) (pos : ℕ) : Option (List Circuit × ℕ) := do
  let message ← encodeMessage aliceBits alicePairs
  if eve then do
    let r ← decodeMessage message evePairs rand pos
    let eveMessage ← encodeMessage r.1 evePairs
    some (eveMessage, r.2.2)
  else some (message, pos)

/-! ### Spec-side definitions (used only to compare against the code) -/

/-- Modelled from the spec: `QBER = (count of index positions where
kept-receiver-bit ≠ kept-reference-bit) / (count of kept positions)`. -/
def specSiftedQBER (r a : List ℕ) : ℚ :=
  (((r.zip a).countP (fun pr => decide (pr.1 ≠ pr.2)) : ℕ) : ℚ) / (r.length : ℚ)

/-- The block-level error rate the entanglement `measureQBER` actually
computes: the fraction of kept 2-bit blocks whose decoded block differs
from the reference block in at least one of its two positions. -/
def blockMismatchQBER (r a : List ℕ) : ℚ :=
  (((List.range (r.length / 2)).countP
      (fun i => !((r.getD (2 * i) 0 == a.getD (2 * i) 0) &&
                  (r.getD (2 * i + 1) 0 == a.getD (2 * i + 1) 0))) : ℕ) : ℚ)
    / ((r.length / 2 : ℕ) : ℚ)

/-- The four Bell states. -/
inductive BellKind where
  | phiPlus | phiMinus | psiPlus | psiMinus
deriving DecidableEq

/-- Unnormalised amplitudes of the four Bell states of one qubit pair
(first argument of `bellAmp` after the kind: the pair's first qubit). -/
def bellAmp : BellKind → Bool → Bool → ℤ
  | BellKind.phiPlus, false, false => 1
  | BellKind.phiPlus, true, true => 1
  | BellKind.phiMinus, false, false => 1
  | BellKind.phiMinus, true, true => -1
  | BellKind.psiPlus, false, true => 1
  | BellKind.psiPlus, true, false => 1
  | BellKind.psiMinus, false, true => 1
  | BellKind.psiMinus, true, false => -1
  | _, _, _ => 0

/-- The 4-qubit product state whose two pairs (as selected by the pairing
label) carry the two given Bell states. -/
def pairStates (s1 s2 : BellKind) (p : ℕ) (i : ℕ) : ℤ :=
  bellAmp s1 (i.testBit (pairsOfLabel p).1.1) (i.testBit (pairsOfLabel p).1.2) *
  bellAmp s2 (i.testBit (pairsOfLabel p).2.1) (i.testBit (pairsOfLabel p).2.2)

/-- Amplitudes of the state `encodeMessage` prepares for one block
(no measurement occurs, so the oracle is irrelevant). -/
def encodeState (b0 b1 p : ℕ) : ℕ → ℤ :=
  (runCircuit 4 (encodeBlock b0 b1 p) (fun _ => false) 0).amp

/-- Amplitudes after only the Bell-state preparation prefix of a block. -/
def bellPrepState (p : ℕ) : ℕ → ℤ :=
  (runCircuit 4 (bellPrep p) (fun _ => false) 0).amp

/-- Modelled from the spec: the Bell-state mapping the spec asserts,
`(0,0)→Φ+,Φ−; (0,1)→Φ−,Φ+; (1,0)→Ψ+,Ψ−; (1,1)→Ψ−,Ψ+`. -/
def specBellMap (b0 b1 : ℕ) : BellKind × BellKind :=
  if b0 = 0 ∧ b1 = 0 then (BellKind.phiPlus, BellKind.phiMinus)
  else if b0 = 0 ∧ b1 = 1 then (BellKind.phiMinus, BellKind.phiPlus)
  else if b0 = 1 ∧ b1 = 0 then (BellKind.psiPlus, BellKind.psiMinus)
  else (BellKind.psiMinus, BellKind.psiPlus)

/-- The Bell-state mapping the code actually implements (an X gate turns
`Φ+` into `Ψ+` and a Z gate into `Φ−`). -/
def codeBellMap (b0 b1 : ℕ) : BellKind × BellKind :=
  if b0 = 0 ∧ b1 = 0 then (BellKind.phiPlus, BellKind.psiPlus)
  else if b0 = 0 ∧ b1 = 1 then (BellKind.psiPlus, BellKind.phiPlus)
  else if b0 = 1 ∧ b1 = 0 then (BellKind.phiMinus, BellKind.psiMinus)
  else (BellKind.psiMinus, BellKind.phiMinus)

/-- All sixteen 4-bit outcome strings. -/
def fourBitStrings : List String :=
  ["0000", "0001", "0010", "0011", "0100", "0101", "0110", "0111",
   "1000", "1001", "1010", "1011", "1100", "1101", "1110", "1111"]

/-! ### General lemmas about the simulator semantics -/

lemma get?_eq_some_getD {α : Type} (d : α) (l : List α) :
    ∀ i : ℕ, i < l.length → l.get? i = some (l.getD i d) := by
  induction l with
  | nil => intro i h; simp at h
  | cons a l ih =>
    intro i h
    cases i with
    | zero => rfl
    | succ j =>
      have := ih j (Nat.lt_of_succ_lt_succ h)
      simpa [List.getD] using this

lemma applyGate_pos_le (n : ℕ) (g : Gate) (s : SimState) : s.pos ≤ (applyGate n g s).pos := by
  cases g with
  | measure q c =>
      simp only [applyGate]
      split
      · exact Nat.le_succ _
      · exact Nat.le_refl _
  | h q => exact Nat.le_refl _
  | x q => exact Nat.le_refl _
  | z q => exact Nat.le_refl _
  | cx a b => exact Nat.le_refl _
  | barrier => exact Nat.le_refl _

lemma runFrom_pos_le (n : ℕ) : ∀ (c : Circuit) (s : SimState), s.pos ≤ (runFrom n c s).pos := by
  intro c
  induction c with
  | nil => intro s; exact Nat.le_refl _
  | cons g c ih =>
      intro s
      exact Nat.le_trans (applyGate_pos_le n g s) (ih (applyGate n g s))

lemma measHas1_congr (n q : ℕ) (s s' : SimState) (h : s.amp = s'.amp) :
    measHas1 n q s' = measHas1 n q s := by
  simp [measHas1, h]

lemma measHas0_congr (n q : ℕ) (s s' : SimState) (h : s.amp = s'.amp) :
    measHas0 n q s' = measHas0 n q s := by
  simp [measHas0, h]

lemma measBranch_congr (n q : ℕ) (s s' : SimState) (h : s.amp = s'.amp) :
    measBranch n q s' = measBranch n q s := by
  simp [measBranch, measHas1_congr n q s s' h, measHas0_congr n q s s' h]

/-- A run whose oracle position comes back unchanged never consulted the
oracle, so its amplitudes and classical registers agree with the same run
from any other oracle state. -/
lemma runFrom_agree (n : ℕ) : ∀ (c : Circuit) (s s' : SimState),
    s.amp = s'.amp → s.creg = s'.creg → (runFrom n c s).pos = s.pos →
    (runFrom n c s').amp = (runFrom n c s).amp ∧
    (runFrom n c s').creg = (runFrom n c s).creg ∧
    (runFrom n c s').pos = s'.pos := by
  intro c
  induction c with
  | nil => intro s s' hamp hcreg _; exact ⟨hamp.symm, hcreg.symm, rfl⟩
  | cons g c ih =>
      intro s s' hamp hcreg hpos
      cases g with
      | barrier => exact ih s s' hamp hcreg hpos
      | h q => exact ih _ _ (by simp [applyGate, hamp]) hcreg hpos
      | x q => exact ih _ _ (by simp [applyGate, hamp]) hcreg hpos
      | z q => exact ih _ _ (by simp [applyGate, hamp]) hcreg hpos
      | cx a b => exact ih _ _ (by simp [applyGate, hamp]) hcreg hpos
      | measure q c2 =>
          have hle : (applyGate n (Gate.measure q c2) s).pos ≤ s.pos := by
            rw [← hpos]
            exact runFrom_pos_le n c _
          have hb : measBranch n q s = false := by
            cases hbv : measBranch n q s with
            | true =>
                exfalso
                have hps : (applyGate n (Gate.measure q c2) s).pos = s.pos + 1 := by
                  simp [applyGate, hbv]
                rw [hps] at hle
                omega
            | false => rfl
          have hb' : measBranch n q s' = false := by
            rw [measBranch_congr n q s s' hamp]; exact hb
          have hout : measOutcome n q s' = measOutcome n q s := by
            simp [measOutcome, hb, hb', measHas1_congr n q s s' hamp]
          have hres := ih (applyGate n (Gate.measure q c2) s) (applyGate n (Gate.measure q c2) s')
            (by simp [applyGate, hout, hamp]) (by simp [applyGate, hout, hcreg])
            (by
              have hps : (applyGate n (Gate.measure q c2) s).pos = s.pos := by
                simp [applyGate, hb]
              rw [hps]
              exact hpos)
          have hps' : (applyGate n (Gate.measure q c2) s').pos = s'.pos := by
            simp [applyGate, hb']
          exact ⟨hres.1, hres.2.1, hres.2.2.trans hps'⟩

/-- A run whose oracle position comes back at `0` under the zero oracle
behaves the same under every oracle. -/
lemma runCircuit_oracle_free (n : ℕ) (c : Circuit)
    (h0 : (runCircuit n c (fun _ => false) 0).pos = 0) (rand : ℕ → Bool) (pos : ℕ) :
    (runCircuit n c rand pos).amp = (runCircuit n c (fun _ => false) 0).amp ∧
    (runCircuit n c rand pos).creg = (runCircuit n c (fun _ => false) 0).creg ∧
    (runCircuit n c rand pos).pos = pos :=
  runFrom_agree n c (initState (fun _ => false) 0) (initState rand pos) rfl rfl h0

/-- Concrete evaluation of one BB84 shot on an encoded qubit measured in
the basis it was encoded in, under the zero oracle: the measurement is
deterministic and yields the encoded bit. -/
lemma bb84_shot_base : ∀ b : Fin 2, ∀ ba : Fin 2,
    ((runCircuit 1 (encodeQubit b.val ba.val ++ bb84MeasGates ba.val)
        (fun _ => false) 0).creg 0 = (b.val == 1)) ∧
    (runCircuit 1 (encodeQubit b.val ba.val ++ bb84MeasGates ba.val)
        (fun _ => false) 0).pos = 0 := by decide

/-- One BB84 shot on a qubit encoded and measured in the same basis is
deterministic: it consumes no oracle bit and yields the encoded bit. -/
lemma bb84_shot (b ba : ℕ) (hb : b < 2) (hba : ba < 2) (rand : ℕ → Bool) (pos : ℕ) :
    ((runCircuit 1 (encodeQubit b ba ++ bb84MeasGates ba) rand pos).creg 0 = (b == 1)) ∧
    (runCircuit 1 (encodeQubit b ba ++ bb84MeasGates ba) rand pos).pos = pos := by
  obtain ⟨hc, h0⟩ := bb84_shot_base ⟨b, hb⟩ ⟨ba, hba⟩
  obtain ⟨-, hcreg, hpos⟩ := runCircuit_oracle_free 1 _ h0 rand pos
  constructor
  · rw [hcreg]
    exact hc
  · exact hpos

/-- Concrete evaluation of the twelve entanglement block round trips under
the zero oracle: all four measurements are deterministic and the decode
lookup returns exactly the encoded block. -/
lemma ent_shot_base : ∀ b0 : Fin 2, ∀ b1 : Fin 2, ∀ p : Fin 3,
    decodeLookup (memString (runCircuit 4
        (encodeBlock b0.val b1.val p.val ++ entDecodeGates p.val) (fun _ => false) 0).creg)
      = (b0.val, b1.val) ∧
    (runCircuit 4 (encodeBlock b0.val b1.val p.val ++ entDecodeGates p.val)
        (fun _ => false) 0).pos = 0 := by decide

/-- One entanglement shot on a block encoded and decoded with the same
pairing label is deterministic: it consumes no oracle bit and the decode
lookup returns exactly the encoded block. -/
lemma ent_shot (b0 b1 p : ℕ) (hb0 : b0 < 2) (hb1 : b1 < 2) (hp : p < 3)
    (rand : ℕ → Bool) (pos : ℕ) :
    decodeLookup (memString (runCircuit 4 (encodeBlock b0 b1 p ++ entDecodeGates p)
        rand pos).creg) = (b0, b1) ∧
    (runCircuit 4 (encodeBlock b0 b1 p ++ entDecodeGates p) rand pos).pos = pos := by
  obtain ⟨hc, h0⟩ := ent_shot_base ⟨b0, hb0⟩ ⟨b1, hb1⟩ ⟨p, hp⟩
  obtain ⟨-, hcreg, hpos⟩ := runCircuit_oracle_free 4 _ h0 rand pos
  rw [hcreg]
  exact ⟨hc, hpos⟩

lemma getD_set_ne {α : Type} (l : List α) (i q : ℕ) (a d : α) (h : q ≠ i) :
    (l.set i a).getD q d = l.getD q d := by
  simp [List.getD_eq_getElem?_getD, List.getElem?_set_ne (Ne.symm h)]

lemma lt_length_of_get?_eq_some {α : Type} {l : List α} {i : ℕ} {x : α}
    (h : l.get? i = some x) : i < l.length := by
  by_contra hlt
  rw [List.get?_eq_none.mpr (Nat.le_of_not_lt hlt)] at h
  exact Option.noConfusion h

/-! ### Lemmas about the BB84 loop bodies -/

lemma encodeGo_spec (bits bases : List ℕ) : ∀ is : List ℕ,
    (∀ i ∈ is, i < bits.length ∧ i < bases.length) →
    encodeGo bits bases is
      = some (is.map (fun i => encodeQubit (bits.getD i 0) (bases.getD i 0))) := by
  intro is
  induction is with
  | nil => intro _; rfl
  | cons i is ih =>
      intro hb
      obtain ⟨h1, h2⟩ := hb i (List.mem_cons_self i is)
      simp only [encodeGo, get?_eq_some_getD 0 bits i h1, get?_eq_some_getD 0 bases i h2,
        ih (fun j hj => hb j (List.mem_cons_of_mem i hj)), Option.bind_eq_bind,
        Option.some_bind, List.map_cons]

lemma encodeGo_some_bounds (bits bases : List ℕ) : ∀ is : List ℕ, ∀ res : List Circuit,
    encodeGo bits bases is = some res → ∀ i ∈ is, i < bits.length ∧ i < bases.length := by
  intro is
  induction is with
  | nil => intro res _ i hi; simp at hi
  | cons j is ih =>
      intro res hres i hi
      simp only [encodeGo, Option.bind_eq_bind, Option.bind_eq_some] at hres
      obtain ⟨ba, hba, b, hbb, rest, hrest, -⟩ := hres
      rcases List.mem_cons.mp hi with hij | hmem
      · subst hij
        exact ⟨lt_length_of_get?_eq_some hbb, lt_length_of_get?_eq_some hba⟩
      · exact ih rest hrest i hmem

/-- `measure_message`'s loop: under in-range indices it succeeds, returns
one measurement per index, and rewrites exactly the visited circuits by
appending the measurement gates (the in-place mutation of the source). -/
lemma measureGo_spec (bases : List ℕ) (rand : ℕ → Bool) :
    ∀ is : List ℕ, is.Nodup →
    ∀ (msg : List Circuit) (pos : ℕ),
    (∀ q ∈ is, q < msg.length ∧ q < bases.length) →
    ∃ ms msg2 pos2, measureGo bases rand is msg pos = some (ms, msg2, pos2) ∧
      ms.length = is.length ∧ msg2.length = msg.length ∧
      (∀ q ∈ is, msg2.get? q = some (msg.getD q [] ++ bb84MeasGates (bases.getD q 0))) ∧
      (∀ q, q ∉ is → msg2.get? q = msg.get? q) := by
  intro is
  induction is with
  | nil =>
      intro _ msg pos _
      exact ⟨[], msg, pos, rfl, rfl, rfl, by simp, fun _ _ => rfl⟩
  | cons i is ih =>
      intro hnd msg pos hb
      obtain ⟨hi, hnds⟩ := List.nodup_cons.mp hnd
      obtain ⟨him, hib⟩ := hb i (List.mem_cons_self i is)
      obtain ⟨ms, msg2, pos2, hrun, hlen, hmlen, hin, hout⟩ :=
        ih hnds (msg.set i (msg.getD i [] ++ bb84MeasGates (bases.getD i 0)))
          (runCircuit 1 (msg.getD i [] ++ bb84MeasGates (bases.getD i 0)) rand pos).pos
          (fun q hq => ⟨by rw [List.length_set]; exact (hb q (List.mem_cons_of_mem i hq)).1,
            (hb q (List.mem_cons_of_mem i hq)).2⟩)
      refine ⟨(if (runCircuit 1 (msg.getD i [] ++ bb84MeasGates (bases.getD i 0))
          rand pos).creg 0 then 1 else 0) :: ms, msg2, pos2, ?_,
        by simp [hlen], by rw [hmlen, List.length_set], ?_, ?_⟩
      · simp only [measureGo, get?_eq_some_getD [] msg i him, get?_eq_some_getD 0 bases i hib,
          Option.bind_eq_bind, Option.some_bind, hrun]
      · intro q hq
        rcases List.mem_cons.mp hq with hqi | hmem
        · subst hqi
          rw [hout q hi, List.get?_set_eq_of_lt _ him]
        · rw [hin q hmem, getD_set_ne msg i q _ []
            (fun hqi => hi (by rw [← hqi]; exact hmem))]
      · intro q hq
        rw [hout q (fun hmem => hq (List.mem_cons_of_mem i hmem)),
          List.get?_set_ne _ msg (fun hiq => hq (by rw [← hiq]; exact List.mem_cons_self i is))]

/-- `measure_message`'s loop on a message whose visited circuits are
encoded qubits, measured in the bases they were encoded in: the shots are
deterministic (the oracle position is unchanged) and return exactly the
encoded bits, in index order. -/
lemma measureGo_roundtrip (bits bases : List ℕ) (rand : ℕ → Bool) :
    ∀ is : List ℕ, is.Nodup →
    ∀ (msg : List Circuit) (pos : ℕ),
    (∀ q ∈ is, q < bases.length ∧ bases.getD q 0 < 2 ∧ bits.getD q 0 < 2 ∧
       msg.get? q = some (encodeQubit (bits.getD q 0) (bases.getD q 0))) →
    ∃ msg2, measureGo bases rand is msg pos
      = some (is.map (fun q => bits.getD q 0), msg2, pos) := by
  intro is
  induction is with
  | nil => intro _ msg pos _; exact ⟨msg, rfl⟩
  | cons i is ih =>
      intro hnd msg pos hb
      obtain ⟨hi, hnds⟩ := List.nodup_cons.mp hnd
      obtain ⟨hib, hba, hbit, hmsg⟩ := hb i (List.mem_cons_self i is)
      obtain ⟨hcreg, hpos⟩ :=
        bb84_shot (bits.getD i 0) (bases.getD i 0) hbit hba rand pos
      obtain ⟨msg2, hrun⟩ :=
        ih hnds (msg.set i (encodeQubit (bits.getD i 0) (bases.getD i 0)
            ++ bb84MeasGates (bases.getD i 0))) pos
          (fun q hq => by
            obtain ⟨h1, h2, h3, h4⟩ := hb q (List.mem_cons_of_mem i hq)
            refine ⟨h1, h2, h3, ?_⟩
            rw [List.get?_set_ne _ msg
              (fun hiq => hi (by rw [hiq]; exact hq))]
            exact h4)
      refine ⟨msg2, ?_⟩
      simp only [measureGo, hmsg, get?_eq_some_getD 0 bases i hib, Option.bind_eq_bind,
        Option.some_bind]
      rw [hpos, hrun]
      simp only [Option.some_bind, List.map_cons]
      rw [hcreg]
      have hbit2 : bits.getD i 0 = 0 ∨ bits.getD i 0 = 1 := by omega
      rcases hbit2 with hb0 | hb1
      · rw [hb0]; rfl
      · rw [hb1]; rfl

/-- BB84 `discardBits`'s loop keeps exactly the indices where the two
basis sequences agree, in order, pairing each kept receiver bit with the
sender bit of the same index. -/
lemma discardGo_spec (results aliceBits aliceBases bobBases : List ℕ) : ∀ is : List ℕ,
    (∀ i ∈ is, i < results.length ∧ i < aliceBits.length ∧
       i < aliceBases.length ∧ i < bobBases.length) →
    discardGo results aliceBits aliceBases bobBases is
      = some ((is.filter (fun i => aliceBases.getD i 0 == bobBases.getD i 0)).map
                 (fun i => results.getD i 0),
              (is.filter (fun i => aliceBases.getD i 0 == bobBases.getD i 0)).map
                 (fun i => aliceBits.getD i 0)) := by
  intro is
  induction is with
  | nil => intro _; rfl
  | cons i is ih =>
      intro hb
      obtain ⟨h1, h2, h3, h4⟩ := hb i (List.mem_cons_self i is)
      have ihe := ih (fun j hj => hb j (List.mem_cons_of_mem i hj))
      by_cases heq : aliceBases.getD i 0 = bobBases.getD i 0
      · have hfc : (i :: is).filter (fun j => aliceBases.getD j 0 == bobBases.getD j 0)
            = i :: is.filter (fun j => aliceBases.getD j 0 == bobBases.getD j 0) := by
          rw [List.filter_cons, if_pos (beq_iff_eq.mpr heq)]
        rw [hfc, List.map_cons, List.map_cons]
        simp only [discardGo, get?_eq_some_getD 0 aliceBases i h3,
          get?_eq_some_getD 0 bobBases i h4, Option.bind_eq_bind, Option.some_bind]
        rw [if_pos heq]
        simp only [get?_eq_some_getD 0 results i h1, get?_eq_some_getD 0 aliceBits i h2,
          Option.bind_eq_bind, Option.some_bind, ihe]
      · have hfc : (i :: is).filter (fun j => aliceBases.getD j 0 == bobBases.getD j 0)
            = is.filter (fun j => aliceBases.getD j 0 == bobBases.getD j 0) := by
          rw [List.filter_cons, if_neg]
          simp only [beq_iff_eq]
          exact heq
        rw [hfc]
        simp only [discardGo, get?_eq_some_getD 0 aliceBases i h3,
          get?_eq_some_getD 0 bobBases i h4, Option.bind_eq_bind, Option.some_bind]
        rw [if_neg heq]
        exact ihe

/-! ### Lemmas about the entanglement loop bodies -/

lemma entEncodeGo_spec (bits pairs : List ℕ) : ∀ is : List ℕ,
    (∀ i ∈ is, i < pairs.length ∧ 2 * i + 1 < bits.length ∧ bits.getD (2 * i) 0 < 2) →
    entEncodeGo bits pairs is
      = some (is.map (fun i =>
          encodeBlock (bits.getD (2 * i) 0) (bits.getD (2 * i + 1) 0) (pairs.getD i 0))) := by
  intro is
  induction is with
  | nil => intro _; rfl
  | cons i is ih =>
      intro hb
      obtain ⟨h1, h2, h3⟩ := hb i (List.mem_cons_self i is)
      have h2a : 2 * i < bits.length := by omega
      have hcond : bits.getD (2 * i) 0 = 0 ∨ bits.getD (2 * i) 0 = 1 := by omega
      simp only [entEncodeGo, get?_eq_some_getD 0 pairs i h1,
        get?_eq_some_getD 0 bits (2 * i) h2a, Option.bind_eq_bind, Option.some_bind,
        if_pos hcond, get?_eq_some_getD 0 bits (2 * i + 1) h2, Option.map_some',
        ih (fun j hj => hb j (List.mem_cons_of_mem i hj)), List.map_cons]

lemma entEncodeGo_some_bounds (bits pairs : List ℕ) : ∀ is : List ℕ, ∀ res : List Circuit,
    entEncodeGo bits pairs is = some res → ∀ i ∈ is, i < pairs.length ∧ 2 * i < bits.length := by
  intro is
  induction is with
  | nil => intro res _ i hi; simp at hi
  | cons j is ih =>
      intro res hres i hi
      simp only [entEncodeGo] at hres
      cases hp : pairs.get? j with
      | none => simp only [hp] at hres; simp at hres
      | some p =>
        simp only [hp] at hres
        cases hb0 : bits.get? (2 * j) with
        | none => simp only [hb0] at hres; simp at hres
        | some b0 =>
          simp only [hb0, Option.bind_eq_bind, Option.some_bind] at hres
          rcases List.mem_cons.mp hi with hij | hmem
          · subst hij
            exact ⟨lt_length_of_get?_eq_some hp, lt_length_of_get?_eq_some hb0⟩
          · cases hrest : entEncodeGo bits pairs is with
            | none =>
                simp only [hrest] at hres
                simp [Option.bind_eq_some] at hres
            | some rest => exact ih rest hrest i hmem

/-- `decodeMessage`'s loop: under in-range indices it succeeds, appends
two decoded bits per block, and rewrites exactly the visited circuits by
appending the decode gates (the in-place mutation of the source). -/
lemma decodeGo_spec (pairs : List ℕ) (rand : ℕ → Bool) :
    ∀ is : List ℕ, is.Nodup →
    ∀ (msg : List Circuit) (pos : ℕ),
    (∀ i ∈ is, i < msg.length ∧ i < pairs.length) →
    ∃ ms msg2 pos2, decodeGo pairs rand is msg pos = some (ms, msg2, pos2) ∧
      ms.length = 2 * is.length ∧ msg2.length = msg.length ∧
      (∀ i ∈ is, msg2.get? i = some (msg.getD i [] ++ entDecodeGates (pairs.getD i 0))) ∧
      (∀ i, i ∉ is → msg2.get? i = msg.get? i) := by
  intro is
  induction is with
  | nil =>
      intro _ msg pos _
      exact ⟨[], msg, pos, rfl, rfl, rfl, by simp, fun _ _ => rfl⟩
  | cons i is ih =>
      intro hnd msg pos hb
      obtain ⟨hi, hnds⟩ := List.nodup_cons.mp hnd
      obtain ⟨him, hip⟩ := hb i (List.mem_cons_self i is)
      obtain ⟨ms, msg2, pos2, hrun, hlen, hmlen, hin, hout⟩ :=
        ih hnds (msg.set i (msg.getD i [] ++ entDecodeGates (pairs.getD i 0)))
          (runCircuit 4 (msg.getD i [] ++ entDecodeGates (pairs.getD i 0)) rand pos).pos
          (fun q hq => ⟨by rw [List.length_set]; exact (hb q (List.mem_cons_of_mem i hq)).1,
            (hb q (List.mem_cons_of_mem i hq)).2⟩)
      refine ⟨(decodeLookup (memString (runCircuit 4
            (msg.getD i [] ++ entDecodeGates (pairs.getD i 0)) rand pos).creg)).1 ::
          (decodeLookup (memString (runCircuit 4
            (msg.getD i [] ++ entDecodeGates (pairs.getD i 0)) rand pos).creg)).2 :: ms,
        msg2, pos2, ?_, by simp [hlen]; omega, by rw [hmlen, List.length_set], ?_, ?_⟩
      · simp only [decodeGo, get?_eq_some_getD [] msg i him, get?_eq_some_getD 0 pairs i hip,
          Option.bind_eq_bind, Option.some_bind, hrun]
      · intro q hq
        rcases List.mem_cons.mp hq with hqi | hmem
        · subst hqi
          rw [hout q hi, List.get?_set_eq_of_lt _ him]
        · rw [hin q hmem, getD_set_ne msg i q _ []
            (fun hqi => hi (by rw [← hqi]; exact hmem))]
      · intro q hq
        rw [hout q (fun hmem => hq (List.mem_cons_of_mem i hmem)),
          List.get?_set_ne _ msg (fun hiq => hq (by rw [← hiq]; exact List.mem_cons_self i is))]

lemma decodeGo_some_bounds (pairs : List ℕ) (rand : ℕ → Bool) : ∀ is : List ℕ,
    ∀ (msg : List Circuit) (pos : ℕ) (res : List ℕ × List Circuit × ℕ),
    decodeGo pairs rand is msg pos = some res → ∀ i ∈ is, i < msg.length ∧ i < pairs.length := by
  intro is
  induction is with
  | nil => intro msg pos res _ i hi; simp at hi
  | cons j is ih =>
      intro msg pos res hres i hi
      simp only [decodeGo, Option.bind_eq_bind, Option.bind_eq_some] at hres
      obtain ⟨qc, hqc, p, hp, rest, hrest, -⟩ := hres
      rcases List.mem_cons.mp hi with hij | hmem
      · subst hij
        exact ⟨lt_length_of_get?_eq_some hqc, lt_length_of_get?_eq_some hp⟩
      · have := ih _ _ _ hrest i hmem
        rw [List.length_set] at this
        exact this

/-- `decodeMessage`'s loop on a message whose visited circuits are encoded
blocks, decoded with the pairing labels they were encoded with: every shot
is deterministic and the decoded bits are exactly the encoded ones. -/
lemma decodeGo_roundtrip (bits pairs : List ℕ) (rand : ℕ → Bool) :
    ∀ is : List ℕ, is.Nodup →
    ∀ (msg : List Circuit) (pos : ℕ),
    (∀ i ∈ is, i < pairs.length ∧ pairs.getD i 0 < 3 ∧
       bits.getD (2 * i) 0 < 2 ∧ bits.getD (2 * i + 1) 0 < 2 ∧
       msg.get? i = some (encodeBlock (bits.getD (2 * i) 0) (bits.getD (2 * i + 1) 0)
         (pairs.getD i 0))) →
    ∃ msg2, decodeGo pairs rand is msg pos
      = some (is.flatMap (fun i => [bits.getD (2 * i) 0, bits.getD (2 * i + 1) 0]),
              msg2, pos) := by
  intro is
  induction is with
  | nil => intro _ msg pos _; exact ⟨msg, rfl⟩
  | cons i is ih =>
      intro hnd msg pos hb
      obtain ⟨hi, hnds⟩ := List.nodup_cons.mp hnd
      obtain ⟨hip, hpv, hb0, hb1, hmsg⟩ := hb i (List.mem_cons_self i is)
      obtain ⟨hlk, hpos⟩ := ent_shot (bits.getD (2 * i) 0) (bits.getD (2 * i + 1) 0)
        (pairs.getD i 0) hb0 hb1 hpv rand pos
      obtain ⟨msg2, hrun⟩ :=
        ih hnds (msg.set i (encodeBlock (bits.getD (2 * i) 0) (bits.getD (2 * i + 1) 0)
            (pairs.getD i 0) ++ entDecodeGates (pairs.getD i 0))) pos
          (fun q hq => by
            obtain ⟨h1, h2, h3, h4, h5⟩ := hb q (List.mem_cons_of_mem i hq)
            refine ⟨h1, h2, h3, h4, ?_⟩
            rw [List.get?_set_ne _ msg (fun hiq => hi (by rw [hiq]; exact hq))]
            exact h5)
      refine ⟨msg2, ?_⟩
      simp only [decodeGo, hmsg, get?_eq_some_getD 0 pairs i hip, Option.bind_eq_bind,
        Option.some_bind]
      rw [hpos, hrun]
      simp only [Option.some_bind, List.flatMap_cons, hlk]
      rfl

/-- `measureBER`'s loop succeeds whenever the accessed positions are in
range, returning some block count. -/
lemma berGo_isSome (aliceBits results : List ℕ) : ∀ is : List ℕ,
    (∀ i ∈ is, 2 * i + 1 < aliceBits.length ∧ 2 * i + 1 < results.length) →
    ∃ c, berGo aliceBits results is = some c := by
  intro is
  induction is with
  | nil => intro _; exact ⟨0, rfl⟩
  | cons i is ih =>
      intro hb
      obtain ⟨h1, h2⟩ := hb i (List.mem_cons_self i is)
      have h1a : 2 * i < aliceBits.length := by omega
      have h2a : 2 * i < results.length := by omega
      obtain ⟨c, hc⟩ := ih (fun j hj => hb j (List.mem_cons_of_mem i hj))
      by_cases heq : aliceBits.getD (2 * i) 0 = results.getD (2 * i) 0
      · refine ⟨(if aliceBits.getD (2 * i + 1) 0 = results.getD (2 * i + 1) 0 then 1 else 0) + c,
          ?_⟩
        simp only [berGo, get?_eq_some_getD 0 aliceBits (2 * i) h1a,
          get?_eq_some_getD 0 results (2 * i) h2a, Option.bind_eq_bind, Option.some_bind]
        rw [if_pos heq]
        simp only [get?_eq_some_getD 0 aliceBits (2 * i + 1) h1,
          get?_eq_some_getD 0 results (2 * i + 1) h2, Option.bind_eq_bind, Option.some_bind, hc]
      · refine ⟨0 + c, ?_⟩
        simp only [berGo, get?_eq_some_getD 0 aliceBits (2 * i) h1a,
          get?_eq_some_getD 0 results (2 * i) h2a, Option.bind_eq_bind, Option.some_bind]
        rw [if_neg heq]
        simp only [Option.some_bind, hc]

/-- When every block agrees, `measureBER`'s loop counts every block. -/
lemma berGo_allEq (aliceBits results : List ℕ) : ∀ is : List ℕ,
    (∀ i ∈ is, 2 * i + 1 < aliceBits.length ∧ 2 * i + 1 < results.length ∧
       aliceBits.getD (2 * i) 0 = results.getD (2 * i) 0 ∧
       aliceBits.getD (2 * i + 1) 0 = results.getD (2 * i + 1) 0) →
    berGo aliceBits results is = some is.length := by
  intro is
  induction is with
  | nil => intro _; rfl
  | cons i is ih =>
      intro hb
      obtain ⟨h1, h2, h3, h4⟩ := hb i (List.mem_cons_self i is)
      have h1a : 2 * i < aliceBits.length := by omega
      have h2a : 2 * i < results.length := by omega
      have ihe := ih (fun j hj => hb j (List.mem_cons_of_mem i hj))
      simp only [berGo, get?_eq_some_getD 0 aliceBits (2 * i) h1a,
        get?_eq_some_getD 0 results (2 * i) h2a, Option.bind_eq_bind, Option.some_bind]
      rw [if_pos h3]
      simp only [get?_eq_some_getD 0 aliceBits (2 * i + 1) h1,
        get?_eq_some_getD 0 results (2 * i + 1) h2, Option.bind_eq_bind, Option.some_bind, ihe]
      rw [if_pos h4]
      simp [List.length_cons, Nat.add_comm]

/-- The entanglement `discardBits` loop keeps exactly the two bits of each
block whose pairing labels agree, in order, index-aligned with the
corresponding sender bits. -/
lemma ent_discardGo_spec (results aliceBits alicePairs bobPairs : List ℕ) : ∀ is : List ℕ,
    (∀ i ∈ is, 2 * i + 1 < results.length ∧ 2 * i + 1 < aliceBits.length ∧
       i < alicePairs.length ∧ i < bobPairs.length) →
    ent_discardGo results aliceBits alicePairs bobPairs is
      = some ((is.filter (fun i => alicePairs.getD i 0 == bobPairs.getD i 0)).flatMap
                (fun i => [results.getD (2 * i) 0, results.getD (2 * i + 1) 0]),
              (is.filter (fun i => alicePairs.getD i 0 == bobPairs.getD i 0)).flatMap
                (fun i => [aliceBits.getD (2 * i) 0, aliceBits.getD (2 * i + 1) 0])) := by
  intro is
  induction is with
  | nil => intro _; rfl
  | cons i is ih =>
      intro hb
      obtain ⟨h1, h2, h3, h4⟩ := hb i (List.mem_cons_self i is)
      have h1a : 2 * i < results.length := by omega
      have h2a : 2 * i < aliceBits.length := by omega
      have ihe := ih (fun j hj => hb j (List.mem_cons_of_mem i hj))
      by_cases heq : alicePairs.getD i 0 = bobPairs.getD i 0
      · have hfc : (i :: is).filter (fun j => alicePairs.getD j 0 == bobPairs.getD j 0)
            = i :: is.filter (fun j => alicePairs.getD j 0 == bobPairs.getD j 0) := by
          rw [List.filter_cons, if_pos (beq_iff_eq.mpr heq)]
        rw [hfc, List.flatMap_cons, List.flatMap_cons]
        simp only [ent_discardGo, get?_eq_some_getD 0 alicePairs i h3,
          get?_eq_some_getD 0 bobPairs i h4, Option.bind_eq_bind, Option.some_bind]
        rw [if_pos heq]
        simp only [get?_eq_some_getD 0 results (2 * i) h1a,
          get?_eq_some_getD 0 results (2 * i + 1) h1,
          get?_eq_some_getD 0 aliceBits (2 * i) h2a,
          get?_eq_some_getD 0 aliceBits (2 * i + 1) h2,
          Option.bind_eq_bind, Option.some_bind, ihe]
        rfl
      · have hfc : (i :: is).filter (fun j => alicePairs.getD j 0 == bobPairs.getD j 0)
            = is.filter (fun j => alicePairs.getD j 0 == bobPairs.getD j 0) := by
          rw [List.filter_cons, if_neg]
          simp only [beq_iff_eq]
          exact heq
        rw [hfc]
        simp only [ent_discardGo, get?_eq_some_getD 0 alicePairs i h3,
          get?_eq_some_getD 0 bobPairs i h4, Option.bind_eq_bind, Option.some_bind]
        rw [if_neg heq]
        exact ihe

/-! ### Counting lemmas for the error estimators -/

lemma foldl_count (P : ℕ → Prop) [DecidablePred P] :
    ∀ (l : List ℕ) (acc : ℕ),
    l.foldl (fun a i => if P i then a + 1 else a) acc = acc + l.countP (fun i => decide (P i)) := by
  intro l
  induction l with
  | nil => intro acc; simp
  | cons x l ih =>
      intro acc
      by_cases hx : P x
      · simp [List.foldl_cons, if_pos hx, ih, List.countP_cons, hx]
        omega
      · simp [List.foldl_cons, if_neg hx, ih, List.countP_cons, hx]

lemma count_range_getD (r : List ℕ) : ∀ a : List ℕ, r.length = a.length →
    (List.range r.length).countP (fun i => decide (r.getD i 0 ≠ a.getD i 0))
      = (r.zip a).countP (fun pr => decide (pr.1 ≠ pr.2)) := by
  induction r with
  | nil => intro a _; rfl
  | cons x r ih =>
      intro a hlen
      cases a with
      | nil => simp at hlen
      | cons y a =>
          have hlen' : r.length = a.length := by simpa using hlen
          rw [List.length_cons, List.range_succ_eq_map, List.countP_cons, List.countP_map]
          have hc : ((fun i => decide ((x :: r).getD i 0 ≠ (y :: a).getD i 0)) ∘ Nat.succ)
              = (fun i => decide (r.getD i 0 ≠ a.getD i 0)) := by
            funext i
            simp [Function.comp]
          rw [hc, ih a hlen', List.zip_cons_cons, List.countP_cons]
          simp

lemma countP_not_add (l : List ℕ) (p q : ℕ → Bool) (hpq : ∀ i, q i = !p i) :
    l.countP q + l.countP p = l.length := by
  induction l with
  | nil => rfl
  | cons x l ih =>
      cases hx : p x with
      | true =>
          have hq : q x = false := by rw [hpq, hx]; rfl
          simp [List.countP_cons, hx, hq]
          omega
      | false =>
          have hq : q x = true := by rw [hpq, hx]; rfl
          simp [List.countP_cons, hx, hq]
          omega

/-! ### Claim theorems -/

/-- C4: the entanglement decode lookup is a total function on 4-bit
outcome strings: `"0001"` maps to `(0,0)`, `"0100"` to `(0,1)`, `"1011"`
to `(1,0)`, and each of the remaining thirteen 4-bit strings maps to
`(1,1)`; moreover every simulator memory string is one of the sixteen
4-bit strings, so exactly one of the four 2-bit results is appended for
every outcome. -/
theorem c4_decode_lookup_total :
    decodeLookup "0001" = (0, 0) ∧ decodeLookup "0100" = (0, 1) ∧ decodeLookup "1011" = (1, 0) ∧
    (∀ s ∈ fourBitStrings, s ≠ "0001" → s ≠ "0100" → s ≠ "1011" → decodeLookup s = (1, 1)) ∧
    (∀ s ∈ fourBitStrings, decodeLookup s = (0, 0) ∨ decodeLookup s = (0, 1) ∨
      decodeLookup s = (1, 0) ∨ decodeLookup s = (1, 1)) ∧
    (∀ creg : ℕ → Bool, memString creg ∈ fourBitStrings) := by
  refine ⟨rfl, rfl, rfl, by decide, by decide, ?_⟩
  intro creg
  cases h3 : creg 3 <;> cases h2 : creg 2 <;> cases h1 : creg 1 <;> cases h0 : creg 0 <;>
    simp [memString, bitChar, h3, h2, h1, h0, fourBitStrings]

/-- Witness for C4 at a concrete catch-all string. -/
theorem c4_decode_lookup_total_witness :
    decodeLookup "1110" = (1, 1) ∧ ("1110" : String) ∈ fourBitStrings :=
  ⟨c4_decode_lookup_total.2.2.2.1 "1110" (by decide) (by decide) (by decide) (by decide),
   by decide⟩

/-- C2 (amended): the BB84 estimator returns the `"null"` sentinel exactly
when the sifted key is empty, and the entanglement estimator returns 1
whenever the sifted key is empty; but for the entanglement estimator the
sentinel value 1 is not exclusive to the empty case (see the
counterexample), so only the BB84 half of the claimed "iff" holds. -/
theorem c2_empty_sift_sentinels (r a : List ℕ) :
    (measureQBER r a = none ↔ r = []) ∧ (r = [] → ent_measureQBER r a = 1) := by
  constructor
  · constructor
    · intro h
      by_contra hne
      have hlen : r.length ≠ 0 := fun h0 => hne (List.length_eq_zero.mp h0)
      simp [measureQBER, hlen] at h
    · intro h
      subst h
      rfl
  · intro h
    subst h
    rfl

/-- Witness for C2 at the empty sifted key. -/
theorem c2_empty_sift_sentinels_witness :
    measureQBER [] [] = none ∧ ent_measureQBER [] [] = 1 :=
  ⟨(c2_empty_sift_sentinels [] []).1.mpr rfl, (c2_empty_sift_sentinels [] []).2 rfl⟩

/-- C2 counterexample: the entanglement estimator also returns its
sentinel value 1 on the non-empty sifted key `[1,1]` against reference
`[0,0]`, so "returns the sentinel exactly when (iff) the sifted input is
empty" is false for the entanglement pipeline. -/
theorem c2_counterexample :
    ent_measureQBER [1, 1] [0, 0] = 1 ∧ ([1, 1] : List ℕ) ≠ [] := by
  constructor
  · norm_num [ent_measureQBER, List.range, List.range.loop]
  · decide

/-- C1 (corrected): on equal-length, non-empty sifted inputs the BB84
estimator returns exactly (count of mismatching kept positions) / (count
of kept positions), as the claim states; the entanglement estimator does
not — it returns (count of kept 2-bit blocks differing in at least one
position) / (count of kept blocks).  The sifted key of the entanglement
pipeline always has even length, which the second part assumes. -/
theorem c1_qber_formulas (r a : List ℕ) (hlen : r.length = a.length) (hne : r ≠ [])
    (heven : r.length % 2 = 0) :
    measureQBER r a = some (specSiftedQBER r a) ∧
    ent_measureQBER r a = blockMismatchQBER r a := by
  have hl0 : r.length ≠ 0 := fun h => hne (List.length_eq_zero.mp h)
  constructor
  · simp only [measureQBER, if_neg hl0]
    rw [foldl_count (fun i => r.getD i 0 ≠ a.getD i 0) (List.range r.length) 0,
      count_range_getD r a hlen]
    simp [specSiftedQBER]
  · simp only [ent_measureQBER, if_neg hl0, blockMismatchQBER]
    have hsum := countP_not_add (List.range (r.length / 2))
      (fun i => (r.getD (2 * i) 0 == a.getD (2 * i) 0) &&
                (r.getD (2 * i + 1) 0 == a.getD (2 * i + 1) 0))
      (fun i => !((r.getD (2 * i) 0 == a.getD (2 * i) 0) &&
                (r.getD (2 * i + 1) 0 == a.getD (2 * i + 1) 0)))
      (fun _ => rfl)
    rw [List.length_range] at hsum
    have hK : r.length / 2 ≠ 0 := by omega
    have hKQ : ((r.length / 2 : ℕ) : ℚ) ≠ 0 := Nat.cast_ne_zero.mpr hK
    have hL : (r.length : ℚ) = 2 * ((r.length / 2 : ℕ) : ℚ) := by
      have h2 : r.length = 2 * (r.length / 2) := by omega
      exact_mod_cast h2
    have hbm : (((List.range (r.length / 2)).countP
          (fun i => !((r.getD (2 * i) 0 == a.getD (2 * i) 0) &&
                (r.getD (2 * i + 1) 0 == a.getD (2 * i + 1) 0))) : ℕ) : ℚ)
        + (((List.range (r.length / 2)).countP
          (fun i => (r.getD (2 * i) 0 == a.getD (2 * i) 0) &&
                (r.getD (2 * i + 1) 0 == a.getD (2 * i + 1) 0)) : ℕ) : ℚ)
        = ((r.length / 2 : ℕ) : ℚ) := by
      exact_mod_cast hsum
    rw [hL, show (2 : ℚ) * ((r.length / 2 : ℕ) : ℚ) / 2 = ((r.length / 2 : ℕ) : ℚ) from by
      ring]
    rw [eq_div_iff hKQ, sub_mul, one_mul, div_mul_cancel₀ _ hKQ]
    linarith

/-- Witness for C1 at a concrete equal-length non-empty sifted key. -/
theorem c1_qber_formulas_witness :
    measureQBER [0, 1] [0, 1] = some (specSiftedQBER [0, 1] [0, 1]) ∧
    ent_measureQBER [0, 1] [0, 1] = blockMismatchQBER [0, 1] [0, 1] :=
  c1_qber_formulas [0, 1] [0, 1] rfl (by decide) rfl

/-- C1 counterexample: on the sifted key `[0,1]` against reference
`[0,0]` the claim's bitwise formula gives 1/2, but the entanglement
estimator returns 1 — it scores whole 2-bit blocks, not bit positions. -/
theorem c1_counterexample :
    ent_measureQBER [0, 1] [0, 0] = 1 ∧ specSiftedQBER [0, 1] [0, 0] = 1 / 2 ∧
    (1 : ℚ) ≠ 1 / 2 := by
  refine ⟨?_, ?_, by norm_num⟩
  · norm_num [ent_measureQBER, List.range, List.range.loop]
  · norm_num [specSiftedQBER]

lemma getD_of_get?_eq_some {α : Type} {l : List α} {i : ℕ} {x : α} (d : α)
    (h : l.get? i = some x) : l.getD i d = x := by
  rw [List.getD_eq_getElem?_getD, ← List.get?_eq_getElem?, h]
  rfl

lemma map_range_get? {α : Type} (f : ℕ → α) (n i : ℕ) (h : i < n) :
    ((List.range n).map f).get? i = some (f i) := by
  rw [List.get?_map, List.get?_range h]
  rfl

lemma range_getD (n i : ℕ) (h : i < n) : (List.range n).getD i 0 = i :=
  getD_of_get?_eq_some 0 (List.get?_range h)

lemma flatMap_pair_length (f g : ℕ → ℕ) : ∀ is : List ℕ,
    (is.flatMap (fun i => [f i, g i])).length = 2 * is.length := by
  intro is
  induction is with
  | nil => rfl
  | cons i is ih =>
      simp only [List.flatMap_cons, List.length_append, ih, List.length_cons]
      simp
      omega

lemma flatMap_pair_getD (f g : ℕ → ℕ) : ∀ (is : List ℕ) (j : ℕ), j < is.length →
    (is.flatMap (fun i => [f i, g i])).getD (2 * j) 0 = f (is.getD j 0) ∧
    (is.flatMap (fun i => [f i, g i])).getD (2 * j + 1) 0 = g (is.getD j 0) := by
  intro is
  induction is with
  | nil => intro j h; simp at h
  | cons i is ih =>
      intro j hj
      cases j with
      | zero => constructor <;> simp [List.flatMap_cons]
      | succ j' =>
          have hrec := ih j' (by simpa using hj)
          have h2 : 2 * (j' + 1) = 2 * j' + 1 + 1 := by ring
          constructor
          · rw [h2]
            simpa [List.flatMap_cons] using hrec.1
          · rw [h2]
            simpa [List.flatMap_cons] using hrec.2

lemma append_ne_self_of_mem {α : Type} {l g : List α} {x : α} (hx : x ∈ g) : l ++ g ≠ l := by
  intro h
  have hlen := congrArg List.length h
  simp only [List.length_append] at hlen
  have hg : g.length = 0 := by omega
  rw [List.length_eq_zero.mp hg] at hx
  simp at hx

lemma getD_replicate_self (n i x : ℕ) : (List.replicate n x).getD i x = x := by
  rw [List.getD_eq_getElem?_getD, List.getElem?_replicate]
  split <;> rfl

lemma measureQBER_none_iff (r a : List ℕ) : measureQBER r a = none ↔ r = [] := by
  constructor
  · intro h
    by_contra hne
    have hlen : r.length ≠ 0 := fun h0 => hne (List.length_eq_zero.mp h0)
    simp [measureQBER, hlen] at h
  · intro h
    subst h
    rfl

/-- C6: sifting keeps position `i` (BB84) or both bits of block `i`
(entanglement) exactly when the two parties' choices agree at `i`,
preserving order; the kept-results and kept-reference outputs have equal
length, at most the input length, and are index-aligned, both being built
from the same ordered list of kept indices. -/
theorem c6_sifting
    (results aliceBits aliceBases bobBases eresults ealiceBits ealicePairs ebobPairs : List ℕ)
    (h1 : numBits ≤ results.length) (h2 : numBits ≤ aliceBits.length)
    (h3 : numBits ≤ aliceBases.length) (h4 : numBits ≤ bobBases.length)
    (e1 : 2 * numPairings ≤ eresults.length) (e2 : 2 * numPairings ≤ ealiceBits.length)
    (e3 : numPairings ≤ ealicePairs.length) (e4 : numPairings ≤ ebobPairs.length) :
    discardBits results aliceBits aliceBases bobBases
      = some (((List.range numBits).filter
                 (fun i => aliceBases.getD i 0 == bobBases.getD i 0)).map
                 (fun i => results.getD i 0),
              ((List.range numBits).filter
                 (fun i => aliceBases.getD i 0 == bobBases.getD i 0)).map
                 (fun i => aliceBits.getD i 0)) ∧
    (∀ i : ℕ, i ∈ (List.range numBits).filter
        (fun i => aliceBases.getD i 0 == bobBases.getD i 0) ↔
      i < numBits ∧ aliceBases.getD i 0 = bobBases.getD i 0) ∧
    (((List.range numBits).filter
        (fun i => aliceBases.getD i 0 == bobBases.getD i 0)).map
        (fun i => results.getD i 0)).length
      = (((List.range numBits).filter
        (fun i => aliceBases.getD i 0 == bobBases.getD i 0)).map
        (fun i => aliceBits.getD i 0)).length ∧
    (((List.range numBits).filter
        (fun i => aliceBases.getD i 0 == bobBases.getD i 0)).map
        (fun i => results.getD i 0)).length ≤ results.length ∧
    ent_discardBits eresults ealiceBits ealicePairs ebobPairs
      = some (((List.range numPairings).filter
                 (fun i => ealicePairs.getD i 0 == ebobPairs.getD i 0)).flatMap
                 (fun i => [eresults.getD (2 * i) 0, eresults.getD (2 * i + 1) 0]),
              ((List.range numPairings).filter
                 (fun i => ealicePairs.getD i 0 == ebobPairs.getD i 0)).flatMap
                 (fun i => [ealiceBits.getD (2 * i) 0, ealiceBits.getD (2 * i + 1) 0])) ∧
    (∀ i : ℕ, i ∈ (List.range numPairings).filter
        (fun i => ealicePairs.getD i 0 == ebobPairs.getD i 0) ↔
      i < numPairings ∧ ealicePairs.getD i 0 = ebobPairs.getD i 0) ∧
    (((List.range numPairings).filter
        (fun i => ealicePairs.getD i 0 == ebobPairs.getD i 0)).flatMap
        (fun i => [eresults.getD (2 * i) 0, eresults.getD (2 * i + 1) 0])).length
      = (((List.range numPairings).filter
        (fun i => ealicePairs.getD i 0 == ebobPairs.getD i 0)).flatMap
        (fun i => [ealiceBits.getD (2 * i) 0, ealiceBits.getD (2 * i + 1) 0])).length ∧
    (((List.range numPairings).filter
        (fun i => ealicePairs.getD i 0 == ebobPairs.getD i 0)).flatMap
        (fun i => [eresults.getD (2 * i) 0, eresults.getD (2 * i + 1) 0])).length
      ≤ eresults.length := by
  have hbb := discardGo_spec results aliceBits aliceBases bobBases (List.range numBits)
    (fun i hi => by
      have := List.mem_range.mp hi
      exact ⟨by omega, by omega, by omega, by omega⟩)
  have hee := ent_discardGo_spec eresults ealiceBits ealicePairs ebobPairs
    (List.range numPairings)
    (fun i hi => by
      have := List.mem_range.mp hi
      exact ⟨by omega, by omega, by omega, by omega⟩)
  refine ⟨hbb, ?_, by simp, ?_, hee, ?_, ?_, ?_⟩
  · intro i
    simp [List.mem_filter, List.mem_range]
  · calc (((List.range numBits).filter
        (fun i => aliceBases.getD i 0 == bobBases.getD i 0)).map
        (fun i => results.getD i 0)).length
        ≤ (List.range numBits).length := by
          rw [List.length_map]
          exact List.length_filter_le _ _
      _ ≤ results.length := by rw [List.length_range]; exact h1
  · intro i
    simp [List.mem_filter, List.mem_range]
  · rw [flatMap_pair_length, flatMap_pair_length]
  · calc (((List.range numPairings).filter
        (fun i => ealicePairs.getD i 0 == ebobPairs.getD i 0)).flatMap
        (fun i => [eresults.getD (2 * i) 0, eresults.getD (2 * i + 1) 0])).length
        = 2 * ((List.range numPairings).filter
            (fun i => ealicePairs.getD i 0 == ebobPairs.getD i 0)).length :=
          flatMap_pair_length _ _ _
      _ ≤ 2 * numPairings := by
          have := List.length_filter_le (fun i => ealicePairs.getD i 0 == ebobPairs.getD i 0)
            (List.range numPairings)
          rw [List.length_range] at this
          omega
      _ ≤ eresults.length := e1

/-- Witness for C6 at concrete configured-length inputs. -/
theorem c6_sifting_witness :
    discardBits (List.replicate 50 0) (List.replicate 50 1) (List.replicate 50 0)
        (List.replicate 50 1)
      = some (((List.range numBits).filter
                 (fun i => (List.replicate 50 0 : List ℕ).getD i 0 ==
                   (List.replicate 50 1 : List ℕ).getD i 0)).map
                 (fun i => (List.replicate 50 0 : List ℕ).getD i 0),
              ((List.range numBits).filter
                 (fun i => (List.replicate 50 0 : List ℕ).getD i 0 ==
                   (List.replicate 50 1 : List ℕ).getD i 0)).map
                 (fun i => (List.replicate 50 1 : List ℕ).getD i 0)) :=
  (c6_sifting (List.replicate 50 0) (List.replicate 50 1) (List.replicate 50 0)
    (List.replicate 50 1) (List.replicate 50 0) (List.replicate 50 0)
    (List.replicate 50 0) (List.replicate 50 0)
    (by decide) (by decide) (by decide) (by decide)
    (by decide) (by decide) (by decide) (by decide)).1

/-- C9 (corrected): the pipeline functions iterate over the module-level
constants `numBits`/`numPairings`, not over their arguments' lengths.
With every input at least the constant length no access is out of range
and the outputs have the fixed configured size (`numBits` circuits for
BB84 `encode_message`, exactly `2·numPairings` decoded bits per
`decodeMessage` call); a basis, pairing or message sequence shorter than
the constant always makes an index access fail.  But — contrary to the
claim — a shorter `results`/`aliceBits` argument of `discardBits` does
not always fail, because those lists are read only at matched positions
(see the counterexample). -/
theorem c9_fixed_iteration :
    (∀ bits bases : List ℕ, numBits ≤ bits.length → numBits ≤ bases.length →
      ∃ msg, encode_message bits bases = some msg ∧ msg.length = numBits) ∧
    (∀ bits bases : List ℕ, bits.length < numBits ∨ bases.length < numBits →
      encode_message bits bases = none) ∧
    (∀ (message : List Circuit) (pairs : List ℕ) (rand : ℕ → Bool) (pos : ℕ),
      numPairings ≤ message.length → numPairings ≤ pairs.length →
      ∃ ms msg2 pos2, decodeMessage message pairs rand pos = some (ms, msg2, pos2) ∧
        ms.length = 2 * numPairings) ∧
    (∀ (message : List Circuit) (pairs : List ℕ) (rand : ℕ → Bool) (pos : ℕ),
      message.length < numPairings ∨ pairs.length < numPairings →
      decodeMessage message pairs rand pos = none) ∧
    (∀ results aliceBits aliceBases bobBases : List ℕ,
      numBits ≤ results.length → numBits ≤ aliceBits.length →
      numBits ≤ aliceBases.length → numBits ≤ bobBases.length →
      (discardBits results aliceBits aliceBases bobBases).isSome = true) ∧
    (∀ aliceBits results : List ℕ,
      2 * numPairings ≤ aliceBits.length → 2 * numPairings ≤ results.length →
      (measureBER aliceBits results).isSome = true) := by
  refine ⟨?_, ?_, ?_, ?_, ?_, ?_⟩
  · intro bits bases hb hba
    rw [encode_message, encodeGo_spec bits bases (List.range numBits)
      (fun i hi => by
        have := List.mem_range.mp hi
        exact ⟨by omega, by omega⟩)]
    exact ⟨_, rfl, by simp⟩
  · intro bits bases hlt
    cases hres : encode_message bits bases with
    | none => rfl
    | some res =>
        exfalso
        have hb := encodeGo_some_bounds bits bases (List.range numBits) res hres
          (numBits - 1) (List.mem_range.mpr (by omega))
        omega
  · intro message pairs rand pos hm hp
    obtain ⟨ms, msg2, pos2, hrun, hlen, -, -, -⟩ :=
      decodeGo_spec pairs rand (List.range numPairings) (List.nodup_range numPairings)
        message pos
        (fun i hi => by
          have := List.mem_range.mp hi
          exact ⟨by omega, by omega⟩)
    refine ⟨ms, msg2, pos2, hrun, ?_⟩
    rw [hlen, List.length_range]
  · intro message pairs rand pos hlt
    cases hres : decodeMessage message pairs rand pos with
    | none => rfl
    | some res =>
        exfalso
        have hb := decodeGo_some_bounds pairs rand (List.range numPairings) message pos res
          hres (numPairings - 1) (List.mem_range.mpr (by omega))
        omega
  · intro results aliceBits aliceBases bobBases hr ha hab hbb
    rw [discardBits, discardGo_spec results aliceBits aliceBases bobBases (List.range numBits)
      (fun i hi => by
        have := List.mem_range.mp hi
        exact ⟨by omega, by omega, by omega, by omega⟩)]
    rfl
  · intro aliceBits results ha hr
    obtain ⟨c, hc⟩ := berGo_isSome aliceBits results (List.range numPairings)
      (fun i hi => by
        have := List.mem_range.mp hi
        exact ⟨by omega, by omega⟩)
    rw [measureBER, hc]
    rfl

/-- Witness for C9: a configured-length input succeeds with the fixed
output size, and a short basis sequence fails. -/
theorem c9_fixed_iteration_witness :
    (∃ msg, encode_message (List.replicate 50 0) (List.replicate 50 1) = some msg ∧
      msg.length = numBits) ∧
    encode_message (List.replicate 50 0) (List.replicate 10 1) = none :=
  ⟨c9_fixed_iteration.1 (List.replicate 50 0) (List.replicate 50 1) (by decide) (by decide),
   c9_fixed_iteration.2.1 (List.replicate 50 0) (List.replicate 10 1) (by decide)⟩

/-- C9 counterexample: `discardBits` succeeds on an empty `results` list
(shorter than `numBits`) when every basis pair mismatches, because the
loop reads `results[i]` only at matched positions; so "any shorter input
makes an index access fail" is false. -/
theorem c9_counterexample :
    discardBits [] [] (List.replicate 50 0) (List.replicate 50 1) = some ([], []) ∧
    ([] : List ℕ).length < numBits := by
  constructor
  · decide
  · decide

/-- C10: `measure_message` and `decodeMessage` mutate the circuits of
their input message list in place, appending the basis-rotation gates and
measurement operations before the shot: after the call every visited
circuit equals its old value with the measurement gates appended, contains
a measurement operation, and differs from its pre-call value — so a second
decode of the same message list operates on already-measured circuits. -/
theorem c10_decode_mutates
    (message : List Circuit) (bases : List ℕ) (rand : ℕ → Bool) (pos : ℕ)
    (hm : numBits ≤ message.length) (hb : numBits ≤ bases.length)
    (hbv : ∀ q, q < numBits → bases.getD q 0 < 2)
    (emessage : List Circuit) (epairs : List ℕ) (erand : ℕ → Bool) (epos : ℕ)
    (hem : numPairings ≤ emessage.length) (hep : numPairings ≤ epairs.length) :
    (∃ ms msg2 pos2, measure_message message bases rand pos = some (ms, msg2, pos2) ∧
      ∀ q, q < numBits →
        msg2.getD q [] = message.getD q [] ++ bb84MeasGates (bases.getD q 0) ∧
        Gate.measure 0 0 ∈ msg2.getD q [] ∧
        msg2.getD q [] ≠ message.getD q []) ∧
    (∃ ms msg2 pos2, decodeMessage emessage epairs erand epos = some (ms, msg2, pos2) ∧
      ∀ i, i < numPairings →
        msg2.getD i [] = emessage.getD i [] ++ entDecodeGates (epairs.getD i 0) ∧
        Gate.measure ((pairsOfLabel (epairs.getD i 0)).2.2) 0 ∈ msg2.getD i [] ∧
        msg2.getD i [] ≠ emessage.getD i []) := by
  constructor
  · obtain ⟨ms, msg2, pos2, hrun, -, -, hin, -⟩ :=
      measureGo_spec bases rand (List.range numBits) (List.nodup_range numBits) message pos
        (fun q hq => by
          have := List.mem_range.mp hq
          exact ⟨by omega, by omega⟩)
    refine ⟨ms, msg2, pos2, hrun, ?_⟩
    intro q hq
    have heq := getD_of_get?_eq_some [] (hin q (List.mem_range.mpr hq))
    have hmem : Gate.measure 0 0 ∈ bb84MeasGates (bases.getD q 0) := by
      have hv := hbv q hq
      have hv2 : bases.getD q 0 = 0 ∨ bases.getD q 0 = 1 := by omega
      rcases hv2 with h0 | h1
      · rw [h0]; decide
      · rw [h1]; decide
    refine ⟨heq, ?_, ?_⟩
    · rw [heq]
      exact List.mem_append_right _ hmem
    · rw [heq]
      exact append_ne_self_of_mem hmem
  · obtain ⟨ms, msg2, pos2, hrun, -, -, hin, -⟩ :=
      decodeGo_spec epairs erand (List.range numPairings) (List.nodup_range numPairings)
        emessage epos
        (fun i hi => by
          have := List.mem_range.mp hi
          exact ⟨by omega, by omega⟩)
    refine ⟨ms, msg2, pos2, hrun, ?_⟩
    intro i hi
    have heq := getD_of_get?_eq_some [] (hin i (List.mem_range.mpr hi))
    have hmem : Gate.measure ((pairsOfLabel (epairs.getD i 0)).2.2) 0
        ∈ entDecodeGates (epairs.getD i 0) := by
      simp [entDecodeGates]
    refine ⟨heq, ?_, ?_⟩
    · rw [heq]
      exact List.mem_append_right _ hmem
    · rw [heq]
      exact append_ne_self_of_mem hmem

/-- Witness for C10 at configured-length concrete inputs. -/
theorem c10_decode_mutates_witness :
    ∃ ms msg2 pos2,
      measure_message (List.replicate 50 []) (List.replicate 50 0) (fun _ => false) 0
        = some (ms, msg2, pos2) ∧
      ∀ q, q < numBits →
        msg2.getD q [] = (List.replicate 50 [] : List Circuit).getD q []
            ++ bb84MeasGates ((List.replicate 50 0 : List ℕ).getD q 0) ∧
        Gate.measure 0 0 ∈ msg2.getD q [] ∧
        msg2.getD q [] ≠ (List.replicate 50 [] : List Circuit).getD q [] :=
  (c10_decode_mutates (List.replicate 50 []) (List.replicate 50 0) (fun _ => false) 0
    (by decide) (by decide) (by decide)
    (List.replicate 25 []) (List.replicate 25 0) (fun _ => false) 0
    (by decide) (by decide)).1

/-- C7: with no eavesdropper and the ideal simulator, encoding then
decoding with receiver choices identical to the sender's is the identity:
BB84 returns exactly the first `numBits` sender bits (position by
position, consuming no randomness), and the entanglement pipeline returns
exactly the first `2·numPairings` sender bits, with whole-block BER 0 —
in particular every block `(b0,b1)` under every pairing scheme, including
`(0,0)` under scheme 0, decodes to itself. -/
theorem c7_roundtrip
    (bits bases : List ℕ) (rand : ℕ → Bool) (pos : ℕ)
    (h1 : numBits ≤ bits.length) (h2 : numBits ≤ bases.length)
    (hv1 : ∀ i, i < numBits → bits.getD i 0 < 2)
    (hv2 : ∀ i, i < numBits → bases.getD i 0 < 2)
    (ebits epairs : List ℕ) (erand : ℕ → Bool) (epos : ℕ)
    (he1 : 2 * numPairings ≤ ebits.length) (he2 : numPairings ≤ epairs.length)
    (hev : ∀ i, i < 2 * numPairings → ebits.getD i 0 < 2)
    (hep : ∀ i, i < numPairings → epairs.getD i 0 < 3) :
    (∃ msg msg2, encode_message bits bases = some msg ∧
       measure_message msg bases rand pos
         = some ((List.range numBits).map (fun i => bits.getD i 0), msg2, pos) ∧
       ∀ i, i < numBits →
         ((List.range numBits).map (fun j => bits.getD j 0)).getD i 0 = bits.getD i 0) ∧
    (∃ msg msg2, encodeMessage ebits epairs = some msg ∧
       decodeMessage msg epairs erand epos
         = some ((List.range numPairings).flatMap
             (fun i => [ebits.getD (2 * i) 0, ebits.getD (2 * i + 1) 0]), msg2, epos) ∧
       (∀ i, i < numPairings →
         ((List.range numPairings).flatMap
             (fun j => [ebits.getD (2 * j) 0, ebits.getD (2 * j + 1) 0])).getD (2 * i) 0
           = ebits.getD (2 * i) 0 ∧
         ((List.range numPairings).flatMap
             (fun j => [ebits.getD (2 * j) 0, ebits.getD (2 * j + 1) 0])).getD (2 * i + 1) 0
           = ebits.getD (2 * i + 1) 0) ∧
       measureBER ebits ((List.range numPairings).flatMap
             (fun i => [ebits.getD (2 * i) 0, ebits.getD (2 * i + 1) 0])) = some 0) := by
  constructor
  · have henc := encodeGo_spec bits bases (List.range numBits)
      (fun i hi => by
        have := List.mem_range.mp hi
        exact ⟨by omega, by omega⟩)
    obtain ⟨msg2, hrun⟩ := measureGo_roundtrip bits bases rand (List.range numBits)
      (List.nodup_range numBits)
      ((List.range numBits).map (fun i => encodeQubit (bits.getD i 0) (bases.getD i 0))) pos
      (fun q hq => by
        have hqn := List.mem_range.mp hq
        exact ⟨by omega, hv2 q hqn, hv1 q hqn, map_range_get? _ numBits q hqn⟩)
    exact ⟨_, msg2, henc, hrun, fun i hi => by
      rw [getD_of_get?_eq_some 0 (map_range_get? _ numBits i hi)]⟩
  · have henc := entEncodeGo_spec ebits epairs (List.range numPairings)
      (fun i hi => by
        have := List.mem_range.mp hi
        exact ⟨by omega, by omega, hev (2 * i) (by omega)⟩)
    obtain ⟨msg2, hrun⟩ := decodeGo_roundtrip ebits epairs erand (List.range numPairings)
      (List.nodup_range numPairings)
      ((List.range numPairings).map (fun i =>
        encodeBlock (ebits.getD (2 * i) 0) (ebits.getD (2 * i + 1) 0) (epairs.getD i 0))) epos
      (fun i hi => by
        have hin := List.mem_range.mp hi
        exact ⟨by omega, hep i hin, hev (2 * i) (by omega), hev (2 * i + 1) (by omega),
          map_range_get? _ numPairings i hin⟩)
    have hgetD : ∀ i, i < numPairings →
        ((List.range numPairings).flatMap
            (fun j => [ebits.getD (2 * j) 0, ebits.getD (2 * j + 1) 0])).getD (2 * i) 0
          = ebits.getD (2 * i) 0 ∧
        ((List.range numPairings).flatMap
            (fun j => [ebits.getD (2 * j) 0, ebits.getD (2 * j + 1) 0])).getD (2 * i + 1) 0
          = ebits.getD (2 * i + 1) 0 := by
      intro i hi
      have hlen : i < (List.range numPairings).length := by
        rw [List.length_range]; exact hi
      have := flatMap_pair_getD (fun j => ebits.getD (2 * j) 0)
        (fun j => ebits.getD (2 * j + 1) 0) (List.range numPairings) i hlen
      rw [range_getD numPairings i hi] at this
      exact this
    have hber : measureBER ebits ((List.range numPairings).flatMap
        (fun i => [ebits.getD (2 * i) 0, ebits.getD (2 * i + 1) 0])) = some 0 := by
      have hflen : ((List.range numPairings).flatMap
          (fun i => [ebits.getD (2 * i) 0, ebits.getD (2 * i + 1) 0])).length
          = 2 * numPairings := by
        rw [flatMap_pair_length, List.length_range]
      have hcount := berGo_allEq ebits ((List.range numPairings).flatMap
          (fun i => [ebits.getD (2 * i) 0, ebits.getD (2 * i + 1) 0]))
        (List.range numPairings)
        (fun i hi => by
          have hin := List.mem_range.mp hi
          refine ⟨by omega, by rw [hflen]; omega, ?_, ?_⟩
          · rw [(hgetD i hin).1]
          · rw [(hgetD i hin).2])
      rw [measureBER, hcount, List.length_range]
      norm_num [numPairings]
    exact ⟨_, msg2, henc, hrun, hgetD, hber⟩

/-- Witness for C7 at concrete configured-length inputs. -/
theorem c7_roundtrip_witness :
    (∃ msg msg2, encode_message (List.replicate 50 1) (List.replicate 50 0) = some msg ∧
       measure_message msg (List.replicate 50 0) (fun _ => false) 0
         = some ((List.range numBits).map
             (fun i => (List.replicate 50 1 : List ℕ).getD i 0), msg2, 0) ∧
       ∀ i, i < numBits →
         ((List.range numBits).map (fun j => (List.replicate 50 1 : List ℕ).getD j 0)).getD i 0
           = (List.replicate 50 1 : List ℕ).getD i 0) ∧
    (∃ msg msg2, encodeMessage (List.replicate 50 0) (List.replicate 25 0) = some msg ∧
       decodeMessage msg (List.replicate 25 0) (fun _ => false) 0
         = some ((List.range numPairings).flatMap
             (fun i => [(List.replicate 50 0 : List ℕ).getD (2 * i) 0,
               (List.replicate 50 0 : List ℕ).getD (2 * i + 1) 0]), msg2, 0) ∧
       (∀ i, i < numPairings →
         ((List.range numPairings).flatMap
             (fun j => [(List.replicate 50 0 : List ℕ).getD (2 * j) 0,
               (List.replicate 50 0 : List ℕ).getD (2 * j + 1) 0])).getD (2 * i) 0
           = (List.replicate 50 0 : List ℕ).getD (2 * i) 0 ∧
         ((List.range numPairings).flatMap
             (fun j => [(List.replicate 50 0 : List ℕ).getD (2 * j) 0,
               (List.replicate 50 0 : List ℕ).getD (2 * j + 1) 0])).getD (2 * i + 1) 0
           = (List.replicate 50 0 : List ℕ).getD (2 * i + 1) 0) ∧
       measureBER (List.replicate 50 0) ((List.range numPairings).flatMap
             (fun i => [(List.replicate 50 0 : List ℕ).getD (2 * i) 0,
               (List.replicate 50 0 : List ℕ).getD (2 * i + 1) 0])) = some 0) :=
  c7_roundtrip (List.replicate 50 1) (List.replicate 50 0) (fun _ => false) 0
    (by decide) (by decide) (by decide) (by decide)
    (List.replicate 50 0) (List.replicate 25 0) (fun _ => false) 0
    (by decide) (by decide) (by decide) (by decide)

/-- C5 (corrected): for every 2-bit block value and pairing label the
encoder does first prepare the Φ+ Bell state on both pairs (Hadamard on
the pair's first qubit, then CNOT onto its partner), but the conditional
X/Z gates then leave the two pairs in the states
`(0,0)→Φ+,Ψ+; (0,1)→Ψ+,Φ+; (1,0)→Φ−,Ψ−; (1,1)→Ψ−,Φ−` — not the mapping
the spec asserts: an X gate turns Φ+ into Ψ+, not into Φ−, and a Z gate
turns it into Φ− (the code's own comments mislabel the states, but the
decode lookup matches the states actually produced, so the pipeline is
self-consistent). -/
theorem c5_encoder_bell_states (b0 b1 p : ℕ) (hb0 : b0 < 2) (hb1 : b1 < 2) (hp : p < 3) :
    (∀ i : Fin 16, bellPrepState p i.val
       = pairStates BellKind.phiPlus BellKind.phiPlus p i.val) ∧
    (∀ i : Fin 16, encodeState b0 b1 p i.val
       = pairStates (codeBellMap b0 b1).1 (codeBellMap b0 b1).2 p i.val) := by
  have hprep : ∀ pp : Fin 3, ∀ i : Fin 16,
      bellPrepState pp.val i.val
        = pairStates BellKind.phiPlus BellKind.phiPlus pp.val i.val := by decide
  have hfull : ∀ bb0 : Fin 2, ∀ bb1 : Fin 2, ∀ pp : Fin 3, ∀ i : Fin 16,
      encodeState bb0.val bb1.val pp.val i.val
        = pairStates (codeBellMap bb0.val bb1.val).1 (codeBellMap bb0.val bb1.val).2
            pp.val i.val := by decide
  exact ⟨hprep ⟨p, hp⟩, hfull ⟨b0, hb0⟩ ⟨b1, hb1⟩ ⟨p, hp⟩⟩

/-- Witness for C5 at block `(1,0)`, pairing label 1, basis index 3. -/
theorem c5_encoder_bell_states_witness :
    encodeState 1 0 1 (3 : Fin 16).val
      = pairStates (codeBellMap 1 0).1 (codeBellMap 1 0).2 1 (3 : Fin 16).val :=
  (c5_encoder_bell_states 1 0 1 (by decide) (by decide) (by decide)).2 3

/-- C5 counterexample: for block `(0,0)` under pairing label 0 the spec's
mapping puts the pairs in Φ+,Φ−, whose product state has amplitude 1 at
basis index 0 (`|0000⟩`), but the state the encoder actually prepares has
amplitude 0 there — the X gate produced Ψ+ on the second pair, not Φ−. -/
theorem c5_counterexample :
    specBellMap 0 0 = (BellKind.phiPlus, BellKind.phiMinus) ∧
    pairStates BellKind.phiPlus BellKind.phiMinus 0 0 = 1 ∧
    encodeState 0 0 0 0 = 0 := by
  refine ⟨rfl, by decide, by decide⟩

/-- C8 (corrected): in the entanglement pipelines the module-level
`evePresent` constant controls the intercept-and-resend stage — with the
toggle off the receiver decodes the sender's message unmodified, with it
on the receiver gets Eve's re-encoded message; `BB84Ideal.py` has no such
toggle: its trial unconditionally measures the message with Eve's bases
and hands the receiver the re-encoded message. -/
theorem c8_eve_toggle
    (aliceBits alicePairs evePairs : List ℕ) (rand : ℕ → Bool) (pos : ℕ)
    (msg : List Circuit) (hmsg : encodeMessage aliceBits alicePairs = some msg)
    (baliceBits baliceBases beveBases : List ℕ) (brand : ℕ → Bool) (bpos : ℕ)
    (bmsg : List Circuit) (hbmsg : encode_message baliceBits baliceBases = some bmsg) :
    ent_bobMessage false aliceBits alicePairs evePairs rand pos = some (msg, pos) ∧
    (∀ er mm p1, decodeMessage msg evePairs rand pos = some (er, mm, p1) →
      ∀ em, encodeMessage er evePairs = some em →
        ent_bobMessage true aliceBits alicePairs evePairs rand pos = some (em, p1)) ∧
    (∀ im bmm bp1, measure_message bmsg beveBases brand bpos = some (im, bmm, bp1) →
      ∀ nm, encode_message im beveBases = some nm →
        bb84_bobMessage baliceBits baliceBases beveBases brand bpos = some (nm, bp1)) := by
  refine ⟨?_, ?_, ?_⟩
  · simp [ent_bobMessage, hmsg]
  · intro er mm p1 hdec em henc
    simp [ent_bobMessage, hmsg, hdec, henc]
  · intro im bmm bp1 hmeas nm henc
    simp [bb84_bobMessage, hbmsg, hmeas, henc]

/-- Witness for C8: with the toggle off the entanglement receiver gets the
sender's encoded message, unmodified. -/
theorem c8_eve_toggle_witness :
    ent_bobMessage false (List.replicate 50 0) (List.replicate 25 0) (List.replicate 25 0)
        (fun _ => false) 0
      = some ((List.range numPairings).map (fun i =>
          encodeBlock ((List.replicate 50 0 : List ℕ).getD (2 * i) 0)
            ((List.replicate 50 0 : List ℕ).getD (2 * i + 1) 0)
            ((List.replicate 25 0 : List ℕ).getD i 0)), 0) :=
  (c8_eve_toggle (List.replicate 50 0) (List.replicate 25 0) (List.replicate 25 0)
    (fun _ => false) 0 _
    (entEncodeGo_spec (List.replicate 50 0) (List.replicate 25 0) (List.range numPairings)
      (fun i hi => by
        have h := List.mem_range.mp hi
        have hN : numPairings = 25 := rfl
        refine ⟨?_, ?_, ?_⟩
        · simp only [List.length_replicate]
          omega
        · simp only [List.length_replicate]
          omega
        · rw [getD_replicate_self]
          decide))
    (List.replicate 50 0) (List.replicate 50 0) (List.replicate 50 0) (fun _ => false) 0 _
    (encodeGo_spec (List.replicate 50 0) (List.replicate 50 0) (List.range numBits)
      (fun i hi => by
        have h := List.mem_range.mp hi
        have hN : numBits = 50 := rfl
        refine ⟨?_, ?_⟩ <;> simp only [List.length_replicate] <;> omega))).1

set_option maxRecDepth 100000 in
/-- C8 counterexample: in `BB84Ideal.py` the intercept-and-resend stage
runs although no toggle was enabled (none exists): with all-zero sender
bits and Z bases, Eve measuring in the X basis, and an oracle answering 1,
the receiver is handed 50 circuits `[X, H, barrier]`, not the sender's
original message of 50 `[barrier]` circuits. -/
theorem c8_counterexample :
    bb84_bobMessage (List.replicate 50 0) (List.replicate 50 0) (List.replicate 50 1)
        (fun _ => true) 0
      = some (List.replicate 50 [Gate.x 0, Gate.h 0, Gate.barrier], 50) ∧
    encode_message (List.replicate 50 0) (List.replicate 50 0)
      = some (List.replicate 50 [Gate.barrier]) ∧
    (List.replicate 50 [Gate.x 0, Gate.h 0, Gate.barrier] : List Circuit)
      ≠ List.replicate 50 [Gate.barrier] := by
  refine ⟨by decide, by decide, by decide⟩

/-- C3: the BB84 driver busy-retries each test until `measureQBER` is not
the `"null"` sentinel.  Over any stream of per-invocation sifted keys
(with their reference bits), and assuming every retry loop terminates,
every value the driver logs (and hence averages) is the `measureQBER` of
some invocation's non-empty sifted key — the sentinel is never logged —
and every invocation skipped before a logged one is exactly a trial whose
sifting kept zero bits. -/
theorem c3_driver_retries (trials : ℕ → List ℕ × List ℕ)
    (H : ∀ c, ∃ k, ((fun i => measureQBER (trials i).1 (trials i).2) (c + k)).isSome = true) :
    (∀ t c v, v ∈ driverLog (fun i => measureQBER (trials i).1 (trials i).2) H t c →
      ∃ i, measureQBER (trials i).1 (trials i).2 = some v ∧ (trials i).1 ≠ []) ∧
    (∀ c j, c ≤ j → j < nextHit (fun i => measureQBER (trials i).1 (trials i).2) H c →
      (trials j).1 = []) := by
  constructor
  · intro t
    induction t with
    | zero => intro c v hv; simp [driverLog] at hv
    | succ t ih =>
        intro c v hv
        rw [driverLog] at hv
        rcases List.mem_cons.mp hv with hhd | htl
        · have hsome : (measureQBER (trials (c + Nat.find (H c))).1
              (trials (c + Nat.find (H c))).2).isSome = true := Nat.find_spec (H c)
          obtain ⟨q, hq⟩ := Option.isSome_iff_exists.mp hsome
          simp only [nextHit] at hhd
          refine ⟨c + Nat.find (H c), ?_, ?_⟩
          · rw [hq] at hhd ⊢
            simp at hhd
            rw [hhd]
          · intro hempty
            rw [(measureQBER_none_iff (trials (c + Nat.find (H c))).1
              (trials (c + Nat.find (H c))).2).mpr hempty] at hsome
            simp at hsome
        · exact ih _ v htl
  · intro c j hcj hjlt
    have hk : j - c < Nat.find (H c) := by
      rw [nextHit] at hjlt
      omega
    have hnone := Nat.find_min (H c) hk
    have hj : c + (j - c) = j := by omega
    rw [hj] at hnone
    have hfn : measureQBER (trials j).1 (trials j).2 = none := by
      cases hfj : measureQBER (trials j).1 (trials j).2 with
      | none => rfl
      | some q =>
          exfalso
          apply hnone
          show (measureQBER (trials j).1 (trials j).2).isSome = true
          rw [hfj]
          rfl
    exact (measureQBER_none_iff (trials j).1 (trials j).2).mp hfn

/-- Witness for C3 over the constant stream of one-bit sifted keys: the
single logged value of a one-test run comes from a non-empty trial. -/
theorem c3_driver_retries_witness :
    ∃ i, measureQBER ((fun _ : ℕ => (([0], [0]) : List ℕ × List ℕ)) i).1
        ((fun _ : ℕ => (([0], [0]) : List ℕ × List ℕ)) i).2
      = some ((measureQBER [0] [0]).getD 0) ∧
      ((fun _ : ℕ => (([0], [0]) : List ℕ × List ℕ)) i).1 ≠ [] :=
  (c3_driver_retries (fun _ => ([0], [0])) (fun _ => ⟨0, rfl⟩)).1 1 0
    ((measureQBER [0] [0]).getD 0) (List.mem_cons_self _ _)
